import Mathlib

/-!
Properties store (package `properties`).

A shallow embedding of `src/properties/properties.go`.

* A Go `string` is a Lean `String` (Go strings that hold valid UTF-8).
* A Go `map[string]T` is a finite map with pairwise distinct keys, `GoMap T`.
  Go leaves the order of a `range` over a map unspecified: the functions that range
  over a map take the order as a parameter `order`, applied to the key list of the
  map, and the theorems assume only that `order` permutes every list.
* A `*Properties` is an address into a heap of `Properties` cells; `nil` is
  `none`.  Every store owns its map (stores are built by `New`, `NewDefault`,
  `Filter` and filled by `Put` and `ReadFrom`), so the map is kept inside the cell.
* Methods that follow the `Defaults` pointer recurse without a bound in Go; here
  they take a fuel argument and return `none` when the fuel runs out (or when a
  nil or dangling pointer is dereferenced).
-/

namespace Properties

/-- A Go map keyed by strings. -/
abbrev GoMap (β : Type) := AList (fun _ : String => β)

/-- A pointer to a `Properties` cell. -/
abbrev Addr := Nat

/-- The order in which a `range` loop visits the keys of a map. -/
abbrev RangeOrder := List String → List String

end Properties

/-- The struct `Properties`: a local map and an optional pointer to the defaults. -/
structure Properties where
  Map : Properties.GoMap String
  Defaults : Option Properties.Addr
deriving DecidableEq

namespace Properties

/-- The heap of allocated stores; an address is an index into it. -/
abbrev Heap := List Properties

/-- `New()`: allocates an empty store without defaults. -/
def New (h : Heap) : Heap × Addr :=
  (h ++ [{ Map := ∅, Defaults := none }], h.length)

/-- `NewDefault(d)`: allocates an empty store whose defaults pointer is `d`. -/
def NewDefault (h : Heap) (d : Option Addr) : Heap × Addr :=
  (h ++ [{ Map := ∅, Defaults := d }], h.length)

/-- `p.Put(key, value)`: `p.Map[key] = value`. -/
def Put (h : Heap) (p : Addr) (key value : String) : Option Heap :=
  match h[p]? with
  | none => none
  | some obj => some (h.set p { obj with Map := obj.Map.insert key value })

/-- `p.Get(key)`: the local map first, then the defaults when the key is absent. -/
def Get : Nat → Heap → Addr → String → Option (String × Bool)
  | 0, _, _, _ => none
  | fuel + 1, h, p, key =>
    match h[p]? with
    | none => none
    | some obj =>
      match obj.Map.lookup key with
      | some value => some (value, true)
      | none =>
        match obj.Defaults with
        | some d => Get fuel h d key
        | none => some ("", false)

/-- `p.Remove(key)`: `delete(p.Map, key)`. -/
def Remove (h : Heap) (p : Addr) (key : String) : Option Heap :=
  match h[p]? with
  | none => none
  | some obj => some (h.set p { obj with Map := obj.Map.erase key })

/-- `p.GetDefault(key, defaultValue)`. -/
def GetDefault (fuel : Nat) (h : Heap) (p : Addr) (key defaultValue : String) :
    Option String :=
  match Get fuel h p key with
  | none => none
  | some (value, ok) => if !ok then some defaultValue else some value

/-- `p.collectKeys(m)`: first the defaults, then every local key is set in `m`. -/
def collectKeys (order : RangeOrder) :
    Nat → Heap → Addr → GoMap Bool → Option (GoMap Bool)
  | 0, _, _, _ => none
  | fuel + 1, h, p, m =>
    match h[p]? with
    | none => none
    | some obj =>
      let afterDefaults :=
        match obj.Defaults with
        | some d => collectKeys order fuel h d m
        | none => some m
      match afterDefaults with
      | none => none
      | some m1 => some ((order obj.Map.keys).foldl (fun acc k => acc.insert k true) m1)

/-- `p.Keys()`: the keys of the map filled by `collectKeys`, appended one by one. -/
def Keys (order : RangeOrder) (fuel : Nat) (h : Heap) (p : Addr) :
    Option (List String) :=
  match collectKeys order fuel h p ∅ with
  | none => none
  | some tmp => some ((order tmp.keys).foldl (fun keys k => keys ++ [k]) [])

/-- The loop of `Filter`: for each key accepted by `f`, put its effective value. -/
def filterLoop (fuel : Nat) (p prop : Addr) (f : String → Bool) :
    List String → Heap → Option Heap
  | [], h => some h
  | k :: ks, h =>
    if f k then
      match Get fuel h p k with
      | none => none
      | some (v, _) =>
        match Put h prop k v with
        | none => none
        | some h1 => filterLoop fuel p prop f ks h1
    else filterLoop fuel p prop f ks h

/-- `p.Filter(f)`: a new store holding the keys of `p.Keys()` that `f` accepts. -/
def Filter (order : RangeOrder) (fuel : Nat) (h : Heap) (p : Addr)
    (f : String → Bool) : Option (Heap × Addr) :=
  match New h with
  | (h1, prop) =>
    match Keys order fuel h1 p with
    | none => none
    | some keys =>
      match filterLoop fuel p prop f keys h1 with
      | none => none
      | some h2 => some (h2, prop)

/-- Go's `strings.HasPrefix(s, pre)`: `len(s) >= len(pre) && s[:len(pre)] == pre`. -/
def HasPrefix (s pre : String) : Bool :=
  decide (pre.data.length ≤ s.data.length) && (s.data.take pre.data.length == pre.data)

/-- `p.FilterHasPrefix(pre)`: `Filter` with the closure `HasPrefix(v, pre)`. -/
def FilterHasPrefix (order : RangeOrder) (fuel : Nat) (h : Heap) (p : Addr)
    (pre : String) : Option (Heap × Addr) :=
  Filter order fuel h p (fun v => HasPrefix v pre)

/-! ## Text input and output

The standard library functions used by `ReadFrom` and `WriteTo` are modelled here:
`unicode.IsSpace`, `strings.TrimSpace`, `strings.SplitN` (with a one-byte separator),
`bufio.Scanner` with the default split function `ScanLines` and the default buffer, and
`io.Writer`.  The reader is given by its content: it delivers the content and then
reports the end of input on a separate read, as `os.File` and `strings.Reader` do.
Lengths are byte lengths of the UTF-8 encoding; the `int64` counters are natural
numbers (no input or output reaches `2^63` bytes). -/

/-- Go's `unicode.IsSpace`: the code points with the property White_Space. -/
def isSpace (c : Char) : Bool :=
  (9 ≤ c.toNat && c.toNat ≤ 13) || c.toNat = 32 || c.toNat = 0x85 || c.toNat = 0xA0 ||
  c.toNat = 0x1680 || (0x2000 ≤ c.toNat && c.toNat ≤ 0x200a) || c.toNat = 0x2028 ||
  c.toNat = 0x2029 || c.toNat = 0x202f || c.toNat = 0x205f || c.toNat = 0x3000

/-- Go's `strings.TrimSpace`: the string without its leading and trailing white space. -/
def TrimSpace (s : String) : String :=
  ⟨(s.data.dropWhile isSpace).rdropWhile isSpace⟩

/-- Go's `strings.Cut` on characters: the parts before and after the first `sep`. -/
def cutAt (sep : Char) : List Char → Option (List Char × List Char)
  | [] => none
  | c :: cs =>
    if c = sep then some ([], cs)
    else
      match cutAt sep cs with
      | none => none
      | some (before, after) => some (c :: before, after)

/-- Go's `strings.SplitN(s, sep, n)` for a one-byte separator: at most `n` pieces, the
last one being the unsplit remainder; `n = 0` gives no piece. -/
def SplitN (sep : Char) : Nat → List Char → List String
  | 0, _ => []
  | 1, s => [⟨s⟩]
  | n + 2, s =>
    match cutAt sep s with
    | none => [⟨s⟩]
    | some (before, after) => ⟨before⟩ :: SplitN sep (n + 1) after

/-- The constant `bufio.MaxScanTokenSize`. -/
def MaxScanTokenSize : Nat := 64 * 1024

/-- The error `bufio.ErrTooLong`. -/
def ErrTooLong : String := "bufio.Scanner: token too long"

/-- The helper `dropCR` of `bufio.ScanLines`: drops one trailing carriage return. -/
def dropCR (data : List Char) : List Char :=
  if data.getLast? = some '\r' then data.dropLast else data

/-- The lines of `bufio.ScanLines` before `dropCR`: the runs of characters between
newlines; a last run without newline is a line unless it is empty. -/
def rawLines : List Char → List (List Char)
  | [] => []
  | c :: cs =>
    if c = '\n' then [] :: rawLines cs
    else
      match rawLines cs with
      | [] => [[c]]
      | l :: ls => (c :: l) :: ls

/-- The tokens that `Scan` delivers and the final `Err()`: a line and its newline must
fit into the buffer of `MaxScanTokenSize` bytes, otherwise scanning stops with
`ErrTooLong`. -/
def scanTokens : List (List Char) → List String × Option String
  | [] => ([], none)
  | l :: ls =>
    if String.utf8ByteSize ⟨l⟩ < MaxScanTokenSize then
      match scanTokens ls with
      | (tokens, err) => (⟨dropCR l⟩ :: tokens, err)
    else ([], some ErrTooLong)

/-- The run of a `bufio.Scanner` over a reader with content `r`: all the tokens of the
successive `Scan()` calls and the value of `Err()` afterwards. -/
def Scan (r : String) : List String × Option String :=
  scanTokens (rawLines r.data)

/-- The result of `ReadFrom` and `WriteTo`: the heap, the count `n`, the error `err`. -/
structure IOResult where
  heap : Heap
  n : Nat
  err : Option String

/-- The body of the loop of `ReadFrom` for the scanned line `b`; `none` is a run-time
panic (index out of range on `splitted`, or a nil receiver in `Put`). -/
def readLine (p : Addr) (h : Heap) (n : Nat) (b : String) : Option (Heap × Nat) :=
  let n1 := n + b.utf8ByteSize
  let trimmed := TrimSpace b
  if trimmed.data = [] then some (h, n1)
  else if trimmed.data.head? = some '#' then some (h, n1)
  else
    let splitted := SplitN '=' 2 trimmed.data
    match splitted[0]?, splitted[1]? with
    | some key, some value =>
      match Put h p key value with
      | none => none
      | some h1 => some (h1, n1)
    | _, _ => none

/-- The loop `for s.Scan()` of `ReadFrom` over the scanned lines. -/
def readLoop (p : Addr) : List String → Heap → Nat → Option (Heap × Nat)
  | [], h, n => some (h, n)
  | b :: bs, h, n =>
    match readLine p h n b with
    | none => none
    | some (h1, n1) => readLoop p bs h1 n1

/-- `p.ReadFrom(r)` for a reader with content `r`; `none` is a run-time panic. -/
def ReadFrom (h : Heap) (p : Addr) (r : String) : Option IOResult :=
  match Scan r with
  | (tokens, err) =>
    match readLoop p tokens h 0 with
    | none => none
    | some (h1, n) => some { heap := h1, n := n, err := err }

/-- An `io.Writer` with internal state `σ`: `Write` returns the new state, the number
of bytes written and the error. -/
structure Writer (σ : Type) where
  Write : σ → String → σ × Nat × Option String

/-- The entries of a map in the order of a `range` loop. -/
def rangeEntries (order : RangeOrder) (m : GoMap String) : List (String × String) :=
  (order m.keys).filterMap (fun k => (m.lookup k).map (fun v => (k, v)))

/-- The loop of `WriteTo` over the entries: four writes per entry, each followed by the
error check and then by the update of `n`. -/
def writeLoop {σ : Type} (w : Writer σ) :
    List (String × String) → σ → Nat → σ × Nat × Option String
  | [], s, n => (s, n, none)
  | (k, v) :: rest, s, n =>
    match w.Write s k with
    | (s1, _, some e) => (s1, n, some e)
    | (s1, nn1, none) =>
      match w.Write s1 "=" with
      | (s2, _, some e) => (s2, n + nn1, some e)
      | (s2, nn2, none) =>
        match w.Write s2 v with
        | (s3, _, some e) => (s3, n + nn1 + nn2, some e)
        | (s3, nn3, none) =>
          match w.Write s3 "\n" with
          | (s4, _, some e) => (s4, n + nn1 + nn2 + nn3, some e)
          | (s4, nn4, none) => writeLoop w rest s4 (n + nn1 + nn2 + nn3 + nn4)

/-- `p.WriteTo(w)` for a writer in state `s`: the final state of the writer, `n` and
`err`; `none` is a run-time panic (nil receiver). -/
def WriteTo {σ : Type} (order : RangeOrder) (w : Writer σ) (s : σ) (h : Heap)
    (p : Addr) : Option (σ × Nat × Option String) :=
  match h[p]? with
  | none => none
  | some obj => some (writeLoop w (rangeEntries order obj.Map) s 0)

/-- A sink that never fails and keeps everything written to it, like `bytes.Buffer`. -/
def bufferWriter : Writer String where
  Write := fun out b => (out ++ b, b.utf8ByteSize, none)

/-- The longest initial part of `cs` that takes at most `room` bytes. -/
def takeFit : Nat → List Char → List Char
  | _, [] => []
  | room, c :: cs =>
    if c.utf8Size ≤ room then c :: takeFit (room - c.utf8Size) cs else []

/-- A sink with room for a number of bytes, like a file on a full disk: a write that
does not fit stores the part that fits, reports its length and fails. -/
def limitedWriter : Writer (String × Nat) where
  Write := fun st b =>
    if b.utf8ByteSize ≤ st.2 then ((st.1 ++ b, st.2 - b.utf8ByteSize), b.utf8ByteSize, none)
    else
      ((st.1 ++ ⟨takeFit st.2 b.data⟩, st.2 - String.utf8ByteSize ⟨takeFit st.2 b.data⟩),
        String.utf8ByteSize ⟨takeFit st.2 b.data⟩, some "short write")

/-! ## Specification vocabulary -/

/-- A sample heap: the store `D` at address 0 holds `b = "2"` and `c = "3"`; the store
`S` at address 1 holds `a = "1"` and `b = "0"` and has `D` as its defaults. -/
def sampleHeap : Heap :=
  [{ Map := AList.insert "b" "2" (AList.insert "c" "3" ∅), Defaults := none },
   { Map := AList.insert "a" "1" (AList.insert "b" "0" ∅), Defaults := some 0 }]

/-- The local entries of the store at `a` as pairs, in the order of the entry list. -/
def entriesOf (h : Heap) (a : Addr) : Option (List (String × String)) :=
  match h[a]? with
  | none => none
  | some obj => some (obj.Map.entries.map (fun e => (e.1, e.2)))

/-- The local entry of the store at `a` for key `k`, if any. -/
def localGet (h : Heap) (a : Addr) (k : String) : Option String :=
  match h[a]? with
  | none => none
  | some obj => obj.Map.lookup k

/-- The defaults chain starting at `p`: the addresses visited until a store without
defaults is reached; `none` when that does not happen within `fuel` steps. -/
def chainOf : Nat → Heap → Addr → Option (List Addr)
  | 0, _, _ => none
  | fuel + 1, h, p =>
    match h[p]? with
    | none => none
    | some obj =>
      match obj.Defaults with
      | none => some [p]
      | some d =>
        match chainOf fuel h d with
        | none => none
        | some rest => some (p :: rest)

/-- The value held by the nearest store of a chain whose local map contains `k`, with
flag `true`; `("", false)` when no store of the chain contains `k`. -/
def resolve (h : Heap) : List Addr → String → String × Bool
  | [], _ => ("", false)
  | a :: rest, k =>
    match localGet h a k with
    | some v => (v, true)
    | none => resolve h rest k

/-- The scanned line `b` is blank or a comment: its trimmed content is empty or starts
with `#`. -/
def Skipped (b : String) : Prop :=
  (TrimSpace b).data = [] ∨ (TrimSpace b).data.head? = some '#'

instance (b : String) : Decidable (Skipped b) := by
  unfold Skipped; infer_instance

/-- The scanned line `b` defines `k = v`: it is neither blank nor a comment and its
trimmed content is `k`, the first `=`, and `v`. -/
def Defines (b k v : String) : Prop :=
  ¬ Skipped b ∧ (TrimSpace b).data = k.data ++ '=' :: v.data ∧ '=' ∉ k.data

instance (b k v : String) : Decidable (Defines b k v) := by
  unfold Defines; infer_instance

/-- The scanned line `b` is malformed: neither blank nor a comment, and without `=`. -/
def Malformed (b : String) : Prop :=
  ¬ Skipped b ∧ '=' ∉ (TrimSpace b).data

instance (b : String) : Decidable (Malformed b) := by
  unfold Malformed; infer_instance

/-- The entry that the scanned line `b` defines, if it defines one. -/
def entryOf (b : String) : Option (String × String) :=
  if Skipped b then none
  else
    match cutAt '=' (TrimSpace b).data with
    | none => none
    | some (k, v) => some (⟨k⟩, ⟨v⟩)

/-- The value that a list of scanned lines gives to `k`: the value of the last line
that defines `k`. -/
def lastValue (k : String) : List String → Option String
  | [] => none
  | b :: bs =>
    match lastValue k bs with
    | some v => some v
    | none =>
      match entryOf b with
      | none => none
      | some (k', v) => if k' = k then some v else none

/-- A line `k=xx...x` of `2 + 65534` bytes. -/
def longLine : List Char := 'k' :: '=' :: List.replicate 65534 'x'

/-- A well-formed input of three lines: `a=1`, the line `longLine`, and `a=9`. -/
def longLineInput : String :=
  ⟨['a', '=', '1'] ++ '\n' :: (longLine ++ '\n' :: (['a', '=', '9'] ++ '\n' :: []))⟩

/-- The lines of an input: the runs between newlines, without a trailing carriage
return. -/
def linesOf (r : String) : List String :=
  (rawLines r.data).map (fun l => (⟨dropCR l⟩ : String))

/-- An input that is one comment line of `1 + 65536` bytes, without newline. -/
def longCommentInput : String := ⟨'#' :: List.replicate 65536 'x'⟩

/-- The text of the entry `k = v` in the file format, without the newline. -/
def lineOf (e : String × String) : List Char :=
  e.1.data ++ '=' :: e.2.data

/-- The text that `WriteTo` emits for a list of entries. -/
def serialize : List (String × String) → List Char
  | [] => []
  | e :: rest => lineOf e ++ '\n' :: serialize rest

/-- The string begins with a white space character. -/
def startsWithSpace (s : String) : Bool :=
  match s.data.head? with
  | some c => isSpace c
  | none => false

/-- The string ends with a white space character. -/
def endsWithSpace (s : String) : Bool :=
  match s.data.getLast? with
  | some c => isSpace c
  | none => false

/-- The entry `k = v` can be written and read back: `k` has no `=`, neither has a
newline, `k` does not begin with `#` or white space, `v` does not end with white space,
and the line `k=v` is shorter than `MaxScanTokenSize` bytes. -/
def Plain (k v : String) : Prop :=
  '=' ∉ k.data ∧ '\n' ∉ k.data ∧ '\n' ∉ v.data ∧ k.data.head? ≠ some '#' ∧
  startsWithSpace k = false ∧ endsWithSpace v = false ∧
  String.utf8ByteSize ⟨lineOf (k, v)⟩ < MaxScanTokenSize

instance (k v : String) : Decidable (Plain k v) := by
  unfold Plain; infer_instance

/-- The arguments of the successive `Write` calls of `WriteTo` for a list of entries. -/
def chunksOf : List (String × String) → List String
  | [] => []
  | e :: rest => e.1 :: "=" :: e.2 :: "\n" :: chunksOf rest

/-- The spec's predicate of `filterHasPrefix`: the key starts with the given string. -/
def startsWith (k pre : String) : Prop := pre.data <+: k.data

instance (k pre : String) : Decidable (startsWith k pre) := by
  unfold startsWith; infer_instance

/-! ## Helper lemmas -/

theorem getElem?_set_self_of_some {h : Heap} {p : Addr} {obj new : Properties}
    (hp : h[p]? = some obj) : (h.set p new)[p]? = some new := by
  obtain ⟨hlt, -⟩ := List.getElem?_eq_some.mp hp
  simp [List.getElem?_set, hlt]

theorem getElem?_set_other {h : Heap} {p a : Addr} {new : Properties}
    (hne : a ≠ p) : (h.set p new)[a]? = h[a]? := by
  simp [List.getElem?_set, Ne.symm hne]

theorem chainOf_length_le : ∀ (n : Nat) (h : Heap) (p : Addr) (as : List Addr),
    chainOf n h p = some as → as.length ≤ n := by
  intro n
  induction n with
  | zero => intro h p as hc; simp [chainOf] at hc
  | succ n ih =>
    intro h p as hc
    unfold chainOf at hc
    cases hp : h[p]? with
    | none => simp [hp] at hc
    | some obj =>
      cases hd : obj.Defaults with
      | none =>
        simp [hp, hd] at hc
        subst hc
        simp
      | some d =>
        cases hr : chainOf n h d with
        | none => simp [hp, hd, hr] at hc
        | some rest =>
          simp [hp, hd, hr] at hc
          subst hc
          have := ih h d rest hr
          simp
          omega

/-- With enough fuel `Get` returns what `resolve` computes along the chain. -/
theorem Get_eq_resolve : ∀ (n : Nat) (h : Heap) (p : Addr) (as : List Addr),
    chainOf n h p = some as → ∀ (fuel : Nat), as.length ≤ fuel → ∀ k : String,
      Get fuel h p k = some (resolve h as k) := by
  intro n
  induction n with
  | zero => intro h p as hc; simp [chainOf] at hc
  | succ n ih =>
    intro h p as hc fuel hf k
    unfold chainOf at hc
    cases hp : h[p]? with
    | none => simp [hp] at hc
    | some obj =>
      cases hd : obj.Defaults with
      | none =>
        simp [hp, hd] at hc
        subst hc
        obtain ⟨f, rfl⟩ : ∃ f, fuel = f + 1 := ⟨fuel - 1, by simp at hf; omega⟩
        cases hl : obj.Map.lookup k <;> simp [Get, resolve, localGet, hp, hd, hl]
      | some d =>
        cases hr : chainOf n h d with
        | none => simp [hp, hd, hr] at hc
        | some rest =>
          simp [hp, hd, hr] at hc
          subst hc
          obtain ⟨f, rfl⟩ : ∃ f, fuel = f + 1 := ⟨fuel - 1, by simp at hf; omega⟩
          have hf1 : rest.length ≤ f := by simp at hf; omega
          cases hl : obj.Map.lookup k with
          | some v => simp [Get, resolve, localGet, hp, hl]
          | none =>
            simp [Get, resolve, localGet, hp, hd, hl]
            exact ih h d rest hr f hf1 k

theorem resolve_false_iff (h : Heap) (as : List Addr) (k : String) :
    (resolve h as k).2 = false ↔ ∀ a ∈ as, localGet h a k = none := by
  induction as with
  | nil => simp [resolve]
  | cons a rest ih =>
    cases hl : localGet h a k with
    | none => simp [resolve, hl, ih]
    | some v => simp [resolve, hl]

theorem resolve_false_value (h : Heap) (as : List Addr) (k : String)
    (hr : (resolve h as k).2 = false) : (resolve h as k).1 = "" := by
  induction as with
  | nil => simp [resolve]
  | cons a rest ih =>
    cases hl : localGet h a k with
    | none =>
      simp only [resolve, hl] at hr ⊢
      exact ih hr
    | some v => simp [resolve, hl] at hr

theorem resolve_true_nearest (h : Heap) (as : List Addr) (k : String)
    (hr : (resolve h as k).2 = true) :
    ∃ front a back, as = front ++ a :: back ∧ (∀ b ∈ front, localGet h b k = none) ∧
      localGet h a k = some (resolve h as k).1 := by
  induction as with
  | nil => simp [resolve] at hr
  | cons a rest ih =>
    cases hl : localGet h a k with
    | none =>
      simp only [resolve, hl] at hr ⊢
      obtain ⟨front, c, back, has, hfront, hc⟩ := ih hr
      refine ⟨a :: front, c, back, by simp [has], ?_, hc⟩
      intro b hb
      rcases List.mem_cons.mp hb with rfl | hb
      · exact hl
      · exact hfront b hb
    | some v =>
      exact ⟨[], a, rest, by simp, by simp, by simp [resolve, hl]⟩

theorem chainOf_head : ∀ (n : Nat) (h : Heap) (p : Addr) (as : List Addr),
    chainOf n h p = some as → ∃ rest, as = p :: rest := by
  intro n h p as hc
  cases n with
  | zero => simp [chainOf] at hc
  | succ n =>
    unfold chainOf at hc
    cases hp : h[p]? with
    | none => simp [hp] at hc
    | some obj =>
      cases hd : obj.Defaults with
      | none => exact ⟨[], by simpa [hp, hd, eq_comm] using hc⟩
      | some d =>
        cases hr : chainOf n h d with
        | none => simp [hp, hd, hr] at hc
        | some rest => exact ⟨rest, by simpa [hp, hd, hr, eq_comm] using hc⟩

/-- The chain of the defaults store is the tail of the chain. -/
theorem chainOf_defaults : ∀ (n : Nat) (h : Heap) (p d : Addr) (obj : Properties)
    (as : List Addr), chainOf (n + 1) h p = some as → h[p]? = some obj →
    obj.Defaults = some d → chainOf n h d = some as.tail := by
  intro n h p d obj as hc hp hd
  unfold chainOf at hc
  cases hr : chainOf n h d with
  | none => simp [hp, hd, hr] at hc
  | some rest =>
    simp [hp, hd, hr] at hc
    subst hc
    rfl

theorem chainOf_mono : ∀ (n : Nat) (h : Heap) (p : Addr) (as : List Addr),
    chainOf n h p = some as → ∀ m, n ≤ m → chainOf m h p = some as := by
  intro n
  induction n with
  | zero => intro h p as hc; simp [chainOf] at hc
  | succ n ih =>
    intro h p as hc m hm
    obtain ⟨m, rfl⟩ : ∃ j, m = j + 1 := ⟨m - 1, by omega⟩
    unfold chainOf at hc ⊢
    cases hp : h[p]? with
    | none => simp [hp] at hc
    | some obj =>
      cases hd : obj.Defaults with
      | none => simpa [hp, hd] using hc
      | some d =>
        cases hr : chainOf n h d with
        | none => simp [hp, hd, hr] at hc
        | some rest =>
          simp [hp, hd, hr] at hc
          simp [hd, ih h d rest hr m (by omega), hc]

/-- Every store strictly below the head of a finite chain has a shorter chain. -/
theorem chainOf_tail_shorter : ∀ (n : Nat) (h : Heap) (p : Addr) (as : List Addr),
    chainOf n h p = some as → ∀ a ∈ as.tail,
      ∃ bs, chainOf n h a = some bs ∧ bs.length < as.length := by
  intro n
  induction n with
  | zero => intro h p as hc; simp [chainOf] at hc
  | succ n ih =>
    intro h p as hc a ha
    have hc0 := hc
    unfold chainOf at hc
    cases hp : h[p]? with
    | none => simp [hp] at hc
    | some obj =>
      cases hd : obj.Defaults with
      | none =>
        simp [hp, hd] at hc
        subst hc
        simp at ha
      | some d =>
        cases hr : chainOf n h d with
        | none => simp [hp, hd, hr] at hc
        | some rest =>
          simp [hp, hd, hr] at hc
          subst hc
          obtain ⟨rest', rfl⟩ := chainOf_head n h d rest hr
          simp only [List.tail_cons] at ha
          rcases List.mem_cons.mp ha with rfl | ha'
          · exact ⟨a :: rest', chainOf_mono n h a _ hr (n + 1) (by omega), by simp⟩
          · obtain ⟨bs, hbs, hlen⟩ := ih h d (d :: rest') hr a (by simpa using ha')
            exact ⟨bs, chainOf_mono n h a _ hbs (n + 1) (by omega), by
              simp at hlen ⊢; omega⟩

/-- A finite chain is acyclic: its head does not occur again below. -/
theorem chainOf_head_not_mem_tail (n : Nat) (h : Heap) (p : Addr) (as : List Addr)
    (hc : chainOf n h p = some as) : p ∉ as.tail := by
  intro hmem
  obtain ⟨bs, hbs, hlen⟩ := chainOf_tail_shorter n h p as hc p hmem
  rw [hc] at hbs
  cases hbs
  omega

/-- Two heaps that agree on the looked-up key and on the defaults pointer of every cell
give the same `Get`. -/
theorem Get_congr_cells (h h' : Heap) (k : String)
    (hcell : ∀ a : Addr,
      Option.map (fun o : Properties => (o.Map.lookup k, o.Defaults)) h'[a]? =
      Option.map (fun o : Properties => (o.Map.lookup k, o.Defaults)) h[a]?) :
    ∀ (fuel : Nat) (p : Addr), Get fuel h' p k = Get fuel h p k := by
  intro fuel
  induction fuel with
  | zero => intro p; rfl
  | succ fuel ih =>
    intro p
    have hp := hcell p
    unfold Get
    cases h1 : h[p]? with
    | none =>
      cases h2 : h'[p]? with
      | none => rfl
      | some o2 => simp [h1, h2] at hp
    | some o1 =>
      cases h2 : h'[p]? with
      | none => simp [h1, h2] at hp
      | some o2 =>
        simp [h1, h2] at hp
        obtain ⟨hl, hd⟩ := hp
        simp only [hl, hd]
        cases o1.Map.lookup k with
        | some v => rfl
        | none =>
          cases o1.Defaults with
          | none => rfl
          | some d => exact ih d

/-- Two heaps that agree on every cell of a finite chain give the same `Get` along it. -/
theorem Get_congr_chain : ∀ (n : Nat) (h h' : Heap) (p : Addr) (as : List Addr),
    chainOf n h p = some as → (∀ a ∈ as, h'[a]? = h[a]?) →
    ∀ (fuel : Nat) (k : String), Get fuel h' p k = Get fuel h p k := by
  intro n
  induction n with
  | zero => intro h h' p as hc; simp [chainOf] at hc
  | succ n ih =>
    intro h h' p as hc hag fuel k
    obtain ⟨rest, rfl⟩ := chainOf_head _ h p as hc
    cases fuel with
    | zero => rfl
    | succ fuel =>
      have hpp : h'[p]? = h[p]? := hag p (by simp)
      cases hp : h[p]? with
      | none => simp only [Get, hpp, hp]
      | some obj =>
        cases hl : obj.Map.lookup k with
        | some v => simp only [Get, hpp, hp, hl]
        | none =>
          cases hd : obj.Defaults with
          | none => simp only [Get, hpp, hp, hl, hd]
          | some d =>
            have hcd := chainOf_defaults n h p d obj _ hc hp hd
            simp only [Get, hpp, hp, hl, hd]
            exact ih h h' d rest hcd (fun a ha => hag a (by simp [ha])) fuel k

theorem chainOf_valid (n : Nat) (h : Heap) (p : Addr) (as : List Addr)
    (hc : chainOf n h p = some as) : ∀ a ∈ as, a < h.length := by
  intro a ha
  obtain ⟨rest, rfl⟩ := chainOf_head n h p as hc
  have hvalid : ∀ b m bs, chainOf m h b = some bs → b < h.length := by
    intro b m bs hb
    cases m with
    | zero => simp [chainOf] at hb
    | succ m =>
      unfold chainOf at hb
      cases hbb : h[b]? with
      | none => simp [hbb] at hb
      | some obj => exact (List.getElem?_eq_some.mp hbb).1
  rcases List.mem_cons.mp ha with rfl | ha'
  · exact hvalid _ n _ hc
  · obtain ⟨bs, hbs, -⟩ := chainOf_tail_shorter n h p _ hc a (by simpa using ha')
    exact hvalid a n bs hbs

theorem chainOf_congr : ∀ (n : Nat) (h h' : Heap) (p : Addr) (as : List Addr),
    chainOf n h p = some as → (∀ a ∈ as, h'[a]? = h[a]?) → chainOf n h' p = some as := by
  intro n
  induction n with
  | zero => intro h h' p as hc; simp [chainOf] at hc
  | succ n ih =>
    intro h h' p as hc hag
    obtain ⟨rest, rfl⟩ := chainOf_head _ h p as hc
    have hpp : h'[p]? = h[p]? := hag p (by simp)
    cases hp : h[p]? with
    | none => simp [chainOf, hp] at hc
    | some obj =>
      cases hd : obj.Defaults with
      | none => simpa [chainOf, hpp, hp, hd] using hc
      | some d =>
        have hcd := chainOf_defaults n h p d obj _ hc hp hd
        have := ih h h' d rest hcd (fun a ha => hag a (by simp [ha]))
        simp [chainOf, hpp, hp, hd, this]

theorem resolve_true_iff (h : Heap) (as : List Addr) (k : String) :
    (resolve h as k).2 = true ↔ ∃ a ∈ as, ∃ v, localGet h a k = some v := by
  have hf := resolve_false_iff h as k
  constructor
  · intro ht
    by_contra hno
    have hall : ∀ a ∈ as, localGet h a k = none := by
      intro a ha
      cases hl : localGet h a k with
      | none => rfl
      | some v => exact absurd ⟨a, ha, v, hl⟩ hno
    rw [hf.mpr hall] at ht
    cases ht
  · rintro ⟨a, ha, v, hv⟩
    cases hr : (resolve h as k).2 with
    | true => rfl
    | false =>
      have := hf.mp hr a ha
      rw [hv] at this
      cases this

theorem foldl_insert_true_mem (l : List String) :
    ∀ (m : GoMap Bool) (k : String),
      k ∈ (l.foldl (fun acc x => acc.insert x true) m).keys ↔ k ∈ m.keys ∨ k ∈ l := by
  induction l with
  | nil => intro m k; simp
  | cons x rest ih =>
    intro m k
    rw [List.foldl_cons, ih]
    rw [← AList.mem_keys, AList.mem_insert, AList.mem_keys, List.mem_cons]
    tauto

theorem foldl_append_singleton (l : List String) :
    ∀ acc : List String, l.foldl (fun keys k => keys ++ [k]) acc = acc ++ l := by
  induction l with
  | nil => intro acc; simp
  | cons x rest ih => intro acc; rw [List.foldl_cons, ih]; simp

/-- With enough fuel `collectKeys` adds to `m` exactly the local keys of the chain. -/
theorem collectKeys_spec (order : RangeOrder) (hord : ∀ l, (order l).Perm l) :
    ∀ (n : Nat) (h : Heap) (p : Addr) (as : List Addr),
    chainOf n h p = some as → ∀ (fuel : Nat), as.length ≤ fuel → ∀ m : GoMap Bool,
      ∃ m', collectKeys order fuel h p m = some m' ∧
        ∀ k, k ∈ m'.keys ↔ k ∈ m.keys ∨ ∃ a ∈ as, ∃ v, localGet h a k = some v := by
  intro n
  induction n with
  | zero => intro h p as hc; simp [chainOf] at hc
  | succ n ih =>
    intro h p as hc fuel hf m
    obtain ⟨rest, rfl⟩ := chainOf_head _ h p as hc
    obtain ⟨f, rfl⟩ : ∃ f, fuel = f + 1 := ⟨fuel - 1, by simp at hf; omega⟩
    have hf1 : rest.length ≤ f := by simp at hf; omega
    cases hp : h[p]? with
    | none => simp [chainOf, hp] at hc
    | some obj =>
      have hloc : ∀ k, k ∈ order obj.Map.keys ↔ ∃ v, localGet h p k = some v := by
        intro k
        rw [(hord _).mem_iff, ← AList.mem_keys, ← AList.lookup_isSome,
          Option.isSome_iff_exists]
        simp [localGet, hp]
      cases hd : obj.Defaults with
      | none =>
        have hrest : rest = [] := by
          simp [chainOf, hp, hd] at hc
          exact hc
        subst hrest
        refine ⟨(order obj.Map.keys).foldl (fun acc x => acc.insert x true) m,
          by simp only [collectKeys, hp, hd], ?_⟩
        intro k
        rw [foldl_insert_true_mem, hloc]
        simp
      | some d =>
        have hcd := chainOf_defaults n h p d obj _ hc hp hd
        obtain ⟨m1, hm1, hmem1⟩ := ih h d rest hcd f hf1 m
        refine ⟨(order obj.Map.keys).foldl (fun acc x => acc.insert x true) m1,
          by simp only [collectKeys, hp, hd, hm1], ?_⟩
        intro k
        rw [foldl_insert_true_mem, hmem1, hloc]
        simp only [List.mem_cons, exists_eq_or_imp]
        constructor
        · rintro ((hA | hB) | hC)
          · exact Or.inl hA
          · exact Or.inr (Or.inr hB)
          · exact Or.inr (Or.inl hC)
        · rintro (hA | hC | hB)
          · exact Or.inl (Or.inl hA)
          · exact Or.inr hC
          · exact Or.inl (Or.inr hB)

/-- With enough fuel `Keys` returns a duplicate-free list of the keys that `Get` finds. -/
theorem Keys_spec (order : RangeOrder) (hord : ∀ l, (order l).Perm l)
    (n : Nat) (h : Heap) (p : Addr) (as : List Addr)
    (hc : chainOf n h p = some as) (fuel : Nat) (hf : as.length ≤ fuel) :
    ∃ ks, Keys order fuel h p = some ks ∧ ks.Nodup ∧
      (∀ k, k ∈ ks ↔ ∃ a ∈ as, ∃ v, localGet h a k = some v) ∧
      (∀ k, k ∈ ks ↔ (resolve h as k).2 = true) := by
  obtain ⟨tmp, htmp, hmem⟩ := collectKeys_spec order hord n h p as hc fuel hf ∅
  have hks : Keys order fuel h p = some (order tmp.keys) := by
    simp [Keys, htmp, foldl_append_singleton]
  have hmem' : ∀ k, k ∈ order tmp.keys ↔ ∃ a ∈ as, ∃ v, localGet h a k = some v := by
    intro k
    rw [(hord _).mem_iff, hmem]
    simp
  refine ⟨order tmp.keys, hks, (hord _).nodup_iff.mpr (AList.keys_nodup tmp), hmem', ?_⟩
  intro k
  rw [hmem', resolve_true_iff]

/-- The loop of `Filter`, run on a heap in which the result store `prop` already holds
`pobj`: it only changes the cell `prop`, whose map gets the effective value of every
listed key that `f` accepts. -/
theorem filterLoop_spec (fuel : Nat) (p prop : Addr) (f : String → Bool) (h0 : Heap)
    (g : String → String × Bool)
    (hstab : ∀ h2 : Heap, (∀ a, a ≠ prop → h2[a]? = h0[a]?) →
      ∀ k, Get fuel h2 p k = some (g k)) :
    ∀ (ks : List String) (hcur : Heap) (pobj : Properties),
      (∀ a, a ≠ prop → hcur[a]? = h0[a]?) → hcur[prop]? = some pobj →
      ∃ h2 pobj', filterLoop fuel p prop f ks hcur = some h2 ∧
        (∀ a, a ≠ prop → h2[a]? = h0[a]?) ∧ h2[prop]? = some pobj' ∧
        pobj'.Defaults = pobj.Defaults ∧
        ∀ k, pobj'.Map.lookup k =
          if k ∈ ks ∧ f k = true then some (g k).1 else pobj.Map.lookup k := by
  intro ks
  induction ks with
  | nil =>
    intro hcur pobj hag hprop
    exact ⟨hcur, pobj, rfl, hag, hprop, rfl, by simp⟩
  | cons x rest ih =>
    intro hcur pobj hag hprop
    by_cases hfx : f x = true
    · have hg := hstab hcur hag x
      cases hgx : g x with
      | mk v ok =>
        rw [hgx] at hg
        have hag1 : ∀ a, a ≠ prop →
            (hcur.set prop { pobj with Map := pobj.Map.insert x v })[a]? = h0[a]? := by
          intro a ha
          rw [getElem?_set_other ha]
          exact hag a ha
        obtain ⟨h2, pobj', hloop, hag2, hprop2, hdef, hlook⟩ :=
          ih (hcur.set prop { pobj with Map := pobj.Map.insert x v })
            { pobj with Map := pobj.Map.insert x v } hag1
            (getElem?_set_self_of_some hprop)
        refine ⟨h2, pobj', ?_, hag2, hprop2, hdef, ?_⟩
        · simp only [filterLoop, hfx, if_true, hg, Put, hprop]
          exact hloop
        · intro k
          rw [hlook k]
          by_cases hkx : k = x
          · subst hkx
            simp [hfx, hgx, AList.lookup_insert]
          · simp [hkx, AList.lookup_insert_ne hkx]
    · obtain ⟨h2, pobj', hloop, hag2, hprop2, hdef, hlook⟩ := ih hcur pobj hag hprop
      refine ⟨h2, pobj', ?_, hag2, hprop2, hdef, ?_⟩
      · simp only [filterLoop, hfx]
        exact hloop
      · intro k
        rw [hlook k]
        by_cases hkx : k = x
        · subst hkx
          simp [hfx]
        · simp [hkx]

/-- With a finite chain and enough fuel `Filter` returns a fresh store without defaults
whose map holds the effective value of every found key that `f` accepts; the stores
that existed before are unchanged. -/
theorem Filter_spec (order : RangeOrder) (hord : ∀ l, (order l).Perm l)
    (n : Nat) (h : Heap) (p : Addr) (as : List Addr)
    (hc : chainOf n h p = some as) (fuel : Nat) (hf : as.length ≤ fuel)
    (f : String → Bool) :
    ∃ h2 robj, Filter order fuel h p f = some (h2, h.length) ∧
      (∀ a, a < h.length → h2[a]? = h[a]?) ∧
      h2[h.length]? = some robj ∧ robj.Defaults = none ∧
      ∀ k, robj.Map.lookup k =
        if f k = true ∧ (resolve h as k).2 = true then some (resolve h as k).1
        else none := by
  have hvalid := chainOf_valid n h p as hc
  have happ : ∀ a, a < h.length →
      (h ++ [({ Map := ∅, Defaults := none } : Properties)])[a]? = h[a]? :=
    fun a ha => List.getElem?_append_left ha
  have hag1 : ∀ a ∈ as,
      (h ++ [({ Map := ∅, Defaults := none } : Properties)])[a]? = h[a]? :=
    fun a ha => happ a (hvalid a ha)
  have hc1 := chainOf_congr n h _ p as hc hag1
  have hres : ∀ k, resolve (h ++ [({ Map := ∅, Defaults := none } : Properties)]) as k =
      resolve h as k := by
    intro k
    have e1 := Get_eq_resolve n _ p as hc1 fuel hf k
    have e2 := Get_eq_resolve n h p as hc fuel hf k
    rw [Get_congr_chain n h _ p as hc hag1 fuel k, e2] at e1
    exact (Option.some.inj e1).symm
  obtain ⟨ks, hks, -, -, hmem⟩ := Keys_spec order hord n _ p as hc1 fuel hf
  have hstab : ∀ h2 : Heap,
      (∀ a, a ≠ h.length →
        h2[a]? = (h ++ [({ Map := ∅, Defaults := none } : Properties)])[a]?) →
      ∀ k, Get fuel h2 p k = some (resolve h as k) := by
    intro h2 hag2 k
    have hag : ∀ a ∈ as, h2[a]? = h[a]? := by
      intro a ha
      have hlt := hvalid a ha
      rw [hag2 a (Nat.ne_of_lt hlt), happ a hlt]
    rw [Get_congr_chain n h h2 p as hc hag fuel k]
    exact Get_eq_resolve n h p as hc fuel hf k
  obtain ⟨h2, robj, hloop, hag2, hprop2, hdef, hlook⟩ :=
    filterLoop_spec fuel p h.length f _ (resolve h as) hstab ks
      (h ++ [({ Map := ∅, Defaults := none } : Properties)])
      { Map := ∅, Defaults := none } (fun _ _ => rfl)
      (List.getElem?_concat_length h _)
  refine ⟨h2, robj, ?_, ?_, hprop2, hdef, ?_⟩
  · simp only [Filter, New, hks, hloop]
  · intro a ha
    rw [hag2 a (Nat.ne_of_lt ha), happ a ha]
  · intro k
    have hm : k ∈ ks ↔ (resolve h as k).2 = true := by
      rw [hmem k, hres k]
    rw [hlook k]
    by_cases hfk : f k = true <;> by_cases hrk : (resolve h as k).2 = true <;>
      simp [hfk, hrk, hm, AList.lookup_empty]

theorem HasPrefix_iff (s pre : String) : HasPrefix s pre = true ↔ startsWith s pre := by
  unfold HasPrefix startsWith
  rw [List.prefix_iff_eq_take]
  constructor
  · intro hb
    simp only [Bool.and_eq_true, decide_eq_true_eq, beq_iff_eq] at hb
    exact hb.2.symm
  · intro he
    simp only [Bool.and_eq_true, decide_eq_true_eq, beq_iff_eq]
    refine ⟨?_, he.symm⟩
    have := congrArg List.length he
    rw [List.length_take] at this
    omega

/-! ### Text -/

theorem cutAt_append (sep : Char) (k v : List Char) (hk : sep ∉ k) :
    cutAt sep (k ++ sep :: v) = some (k, v) := by
  induction k with
  | nil => simp [cutAt]
  | cons c k ih =>
    have hc : c ≠ sep := fun hEq => hk (by simp [hEq])
    have hk' : sep ∉ k := fun hm => hk (List.mem_cons_of_mem _ hm)
    simp [cutAt, hc, ih hk']

theorem cutAt_some (sep : Char) : ∀ (s a b : List Char),
    cutAt sep s = some (a, b) → s = a ++ sep :: b ∧ sep ∉ a := by
  intro s
  induction s with
  | nil => intro a b hcut; simp [cutAt] at hcut
  | cons c cs ih =>
    intro a b hcut
    by_cases hc : c = sep
    · simp [cutAt, hc] at hcut
      obtain ⟨rfl, rfl⟩ := hcut
      simp [hc]
    · cases hrec : cutAt sep cs with
      | none => simp [cutAt, hc, hrec] at hcut
      | some ab =>
        obtain ⟨a', b'⟩ := ab
        simp [cutAt, hc, hrec] at hcut
        obtain ⟨rfl, rfl⟩ := hcut
        obtain ⟨hs, hna⟩ := ih a' b' hrec
        refine ⟨by simp [hs], ?_⟩
        intro hm
        rcases List.mem_cons.mp hm with hEq | hm'
        · exact hc hEq.symm
        · exact hna hm'

theorem cutAt_none (sep : Char) : ∀ s : List Char, cutAt sep s = none ↔ sep ∉ s := by
  intro s
  induction s with
  | nil => simp [cutAt]
  | cons c cs ih =>
    by_cases hc : c = sep
    · simp [cutAt, hc]
    · cases hrec : cutAt sep cs with
      | none =>
        have := ih.mp hrec
        simp [cutAt, hc, hrec, this, Ne.symm hc]
      | some ab =>
        have hmem : sep ∈ cs := by
          by_contra hno
          rw [ih.mpr hno] at hrec
          cases hrec
        simp [cutAt, hc, hrec, hmem]

theorem SplitN_two_of_cut (s a b : List Char) (hcut : cutAt '=' s = some (a, b)) :
    SplitN '=' 2 s = [⟨a⟩, ⟨b⟩] := by
  simp [SplitN, hcut]

theorem SplitN_two_of_no_sep (s : List Char) (hno : '=' ∉ s) :
    SplitN '=' 2 s = [⟨s⟩] := by
  simp [SplitN, (cutAt_none '=' s).mpr hno]

theorem TrimSpace_head_not_space (b : String) (c : Char)
    (hc : (TrimSpace b).data.head? = some c) : isSpace c = false := by
  unfold TrimSpace at hc
  simp only at hc
  obtain ⟨rest, hrest⟩ :
      ∃ rest, (b.data.dropWhile isSpace).rdropWhile isSpace = c :: rest := by
    cases ht : (b.data.dropWhile isSpace).rdropWhile isSpace with
    | nil => rw [ht] at hc; cases hc
    | cons x rest =>
      rw [ht] at hc
      simp only [List.head?_cons, Option.some.injEq] at hc
      exact ⟨rest, by rw [hc]⟩
  obtain ⟨tl, htl⟩ := (List.rdropWhile_prefix isSpace (b.data.dropWhile isSpace) :
    (b.data.dropWhile isSpace).rdropWhile isSpace <+: b.data.dropWhile isSpace)
  rw [hrest] at htl
  have hnot := List.head?_dropWhile_not isSpace b.data
  rw [← htl] at hnot
  simpa using hnot

theorem TrimSpace_last_not_space (b : String) (c : Char)
    (hc : (TrimSpace b).data.getLast? = some c) : isSpace c = false := by
  unfold TrimSpace at hc
  simp only at hc
  have hne : (b.data.dropWhile isSpace).rdropWhile isSpace ≠ [] := by
    intro he
    rw [he] at hc
    cases hc
  have hnot := List.rdropWhile_last_not isSpace (b.data.dropWhile isSpace) hne
  rw [List.getLast?_eq_getLast _ hne] at hc
  rw [← Option.some.inj hc]
  simpa using hnot

theorem TrimSpace_eq_self (s : List Char)
    (hh : ∀ c, s.head? = some c → isSpace c = false)
    (hl : ∀ c, s.getLast? = some c → isSpace c = false) :
    (TrimSpace ⟨s⟩).data = s := by
  have h1 : s.dropWhile isSpace = s := by
    cases s with
    | nil => rfl
    | cons c cs => simp [List.dropWhile_cons, hh c rfl]
  have h2 : s.rdropWhile isSpace = s := by
    rw [List.rdropWhile_eq_self_iff]
    intro hne
    have := hl _ (List.getLast?_eq_getLast s hne)
    simp [this]
  simp only [TrimSpace, h1, h2]

/-! ### The loop body of `ReadFrom` -/

theorem readLine_skipped (p : Addr) (h : Heap) (n : Nat) (b : String) (hs : Skipped b) :
    readLine p h n b = some (h, n + b.utf8ByteSize) := by
  unfold readLine
  rcases hs with he | hc
  · simp [he]
  · by_cases he : (TrimSpace b).data = []
    · simp [he]
    · simp [he, hc]

theorem readLine_defines (p : Addr) (h : Heap) (n : Nat) (b k v : String)
    (hd : Defines b k v) :
    readLine p h n b =
      match Put h p k v with
      | none => none
      | some h1 => some (h1, n + b.utf8ByteSize) := by
  obtain ⟨hns, hdata, hk⟩ := hd
  have he : (TrimSpace b).data ≠ [] := fun he => hns (Or.inl he)
  have hc : (TrimSpace b).data.head? ≠ some '#' := fun hc => hns (Or.inr hc)
  have hcut := cutAt_append '=' k.data v.data hk
  rw [← hdata] at hcut
  unfold readLine
  simp only [he, hc, if_false, SplitN_two_of_cut _ _ _ hcut]
  rfl

theorem readLine_malformed (p : Addr) (h : Heap) (n : Nat) (b : String)
    (hm : Malformed b) : readLine p h n b = none := by
  obtain ⟨hns, hno⟩ := hm
  have he : (TrimSpace b).data ≠ [] := fun he => hns (Or.inl he)
  have hc : (TrimSpace b).data.head? ≠ some '#' := fun hc => hns (Or.inr hc)
  unfold readLine
  simp only [he, hc, if_false, SplitN_two_of_no_sep _ hno]
  rfl

/-- Every scanned line is blank or a comment, or defines an entry, or is malformed. -/
theorem line_cases (b : String) :
    Skipped b ∨ (∃ k v, Defines b k v) ∨ Malformed b := by
  by_cases hs : Skipped b
  · exact Or.inl hs
  · by_cases hm : '=' ∈ (TrimSpace b).data
    · cases hcut : cutAt '=' (TrimSpace b).data with
      | none => exact absurd hm ((cutAt_none '=' _).mp hcut)
      | some ab =>
        obtain ⟨a, c⟩ := ab
        obtain ⟨hdata, hna⟩ := cutAt_some '=' _ a c hcut
        exact Or.inr (Or.inl ⟨⟨a⟩, ⟨c⟩, hs, hdata, hna⟩)
    · exact Or.inr (Or.inr ⟨hs, hm⟩)

theorem Defines_unique (b k v k' v' : String) (h1 : Defines b k v)
    (h2 : Defines b k' v') : k = k' ∧ v = v' := by
  have c1 := cutAt_append '=' k.data v.data h1.2.2
  have c2 := cutAt_append '=' k'.data v'.data h2.2.2
  rw [← h1.2.1] at c1
  rw [← h2.2.1, c1] at c2
  simp only [Option.some.injEq, Prod.mk.injEq] at c2
  exact ⟨String.ext c2.1, String.ext c2.2⟩

theorem entryOf_eq_some_iff (b k v : String) :
    entryOf b = some (k, v) ↔ Defines b k v := by
  unfold entryOf
  constructor
  · intro he
    by_cases hs : Skipped b
    · simp [hs] at he
    · cases hcut : cutAt '=' (TrimSpace b).data with
      | none => simp [hs, hcut] at he
      | some ab =>
        obtain ⟨a, c⟩ := ab
        simp [hs, hcut] at he
        obtain ⟨rfl, rfl⟩ := he
        obtain ⟨hdata, hna⟩ := cutAt_some '=' _ a c hcut
        exact ⟨hs, hdata, hna⟩
  · rintro ⟨hs, hdata, hna⟩
    have hcut := cutAt_append '=' k.data v.data hna
    rw [← hdata] at hcut
    simp [hs, hcut]

theorem entryOf_eq_none_iff (b : String) :
    entryOf b = none ↔ ∀ k v, ¬ Defines b k v := by
  constructor
  · intro he k v hd
    rw [(entryOf_eq_some_iff b k v).mpr hd] at he
    cases he
  · intro hall
    cases he : entryOf b with
    | none => rfl
    | some kv => exact absurd ((entryOf_eq_some_iff b kv.1 kv.2).mp he) (hall kv.1 kv.2)

theorem lastValue_eq_none_iff (k : String) : ∀ bs : List String,
    lastValue k bs = none ↔ ∀ b ∈ bs, ∀ v, ¬ Defines b k v := by
  intro bs
  induction bs with
  | nil => simp [lastValue]
  | cons b0 rest ih =>
    constructor
    · intro hl b hb v hd
      cases hrest : lastValue k rest with
      | some w => simp [lastValue, hrest] at hl
      | none =>
        rcases List.mem_cons.mp hb with rfl | hb'
        · have he := (entryOf_eq_some_iff b k v).mpr hd
          simp [lastValue, hrest, he] at hl
        · exact ih.mp hrest b hb' v hd
    · intro hall
      have hrest : lastValue k rest = none :=
        ih.mpr (fun b hb v => hall b (List.mem_cons_of_mem _ hb) v)
      cases he : entryOf b0 with
      | none => simp [lastValue, hrest, he]
      | some kv =>
        obtain ⟨k', w⟩ := kv
        have hk : k' ≠ k := by
          rintro rfl
          exact hall b0 (List.mem_cons_self _ _) w ((entryOf_eq_some_iff b0 k' w).mp he)
        simp [lastValue, hrest, he, hk]

/-- A value of `lastValue` comes from the last line that defines the key. -/
theorem lastValue_sound (k v : String) : ∀ bs : List String,
    lastValue k bs = some v →
      ∃ front b back, bs = front ++ b :: back ∧ Defines b k v ∧
        ∀ b' ∈ back, ∀ v', ¬ Defines b' k v' := by
  intro bs
  induction bs with
  | nil => intro hl; simp [lastValue] at hl
  | cons b0 rest ih =>
    intro hl
    cases hrest : lastValue k rest with
    | some w =>
      simp only [lastValue, hrest] at hl
      rw [hl] at hrest
      obtain ⟨front, b, back, hsplit, hd, hback⟩ := ih hrest
      exact ⟨b0 :: front, b, back, by simp [hsplit], hd, hback⟩
    | none =>
      simp only [lastValue, hrest] at hl
      cases he : entryOf b0 with
      | none => simp [he] at hl
      | some kv =>
        obtain ⟨k', w⟩ := kv
        simp only [he] at hl
        by_cases hk : k' = k
        · simp only [hk, if_true, Option.some.injEq] at hl
          subst hl
          subst hk
          exact ⟨[], b0, rest, rfl, (entryOf_eq_some_iff b0 k' w).mp he,
            (lastValue_eq_none_iff k' rest).mp hrest⟩
        · simp [hk] at hl

/-- The last line that defines the key gives the value of `lastValue`. -/
theorem lastValue_complete (k v : String) : ∀ (front : List String) (b : String)
    (back : List String), Defines b k v → (∀ b' ∈ back, ∀ v', ¬ Defines b' k v') →
    lastValue k (front ++ b :: back) = some v := by
  intro front
  induction front with
  | nil =>
    intro b back hd hback
    have hnone := (lastValue_eq_none_iff k back).mpr hback
    simp [lastValue, hnone, (entryOf_eq_some_iff b k v).mpr hd]
  | cons f0 front ih =>
    intro b back hd hback
    have := ih b back hd hback
    simp [lastValue, this]

/-! ### The loop of `ReadFrom` -/

theorem readLine_n (p : Addr) (h : Heap) (n : Nat) (b : String) (h1 : Heap) (n1 : Nat)
    (hr : readLine p h n b = some (h1, n1)) : n1 = n + b.utf8ByteSize := by
  rcases line_cases b with hs | ⟨k, v, hd⟩ | hm
  · rw [readLine_skipped p h n b hs] at hr
    simp only [Option.some.injEq, Prod.mk.injEq] at hr
    exact hr.2.symm
  · rw [readLine_defines p h n b k v hd] at hr
    cases hput : Put h p k v with
    | none => simp [hput] at hr
    | some h2 =>
      simp only [hput, Option.some.injEq, Prod.mk.injEq] at hr
      exact hr.2.symm
  · rw [readLine_malformed p h n b hm] at hr
    cases hr

theorem readLoop_n (p : Addr) : ∀ (bs : List String) (h : Heap) (n : Nat) (h' : Heap)
    (n' : Nat), readLoop p bs h n = some (h', n') →
    n' = n + (bs.map String.utf8ByteSize).sum := by
  intro bs
  induction bs with
  | nil =>
    intro h n h' n' hr
    simp only [readLoop, Option.some.injEq, Prod.mk.injEq] at hr
    simp [hr.2]
  | cons b rest ih =>
    intro h n h' n' hr
    cases hl : readLine p h n b with
    | none => simp [readLoop, hl] at hr
    | some hn =>
      obtain ⟨h1, n1⟩ := hn
      simp only [readLoop, hl] at hr
      have e1 := readLine_n p h n b h1 n1 hl
      have e2 := ih h1 n1 h' n' hr
      simp only [List.map_cons, List.sum_cons]
      omega

theorem readLoop_skipped (p : Addr) : ∀ (bs : List String) (h : Heap) (n : Nat),
    (∀ b ∈ bs, Skipped b) →
    readLoop p bs h n = some (h, n + (bs.map String.utf8ByteSize).sum) := by
  intro bs
  induction bs with
  | nil => intro h n _; simp [readLoop]
  | cons b rest ih =>
    intro h n hall
    have hb := hall b (List.mem_cons_self _ _)
    simp only [readLoop, readLine_skipped p h n b hb]
    rw [ih h _ (fun b' hb' => hall b' (List.mem_cons_of_mem _ hb'))]
    simp only [List.map_cons, List.sum_cons, Nat.add_assoc]

/-- On a valid store and lines none of which is malformed the loop of `ReadFrom` returns;
it changes only the map of the store, where every key gets the value of the last line
that defines it. -/
theorem readLoop_wf (p : Addr) : ∀ (bs : List String) (h : Heap) (n : Nat)
    (obj : Properties), h[p]? = some obj → (∀ b ∈ bs, ¬ Malformed b) →
    ∃ h' obj', readLoop p bs h n = some (h', n + (bs.map String.utf8ByteSize).sum) ∧
      h'[p]? = some obj' ∧ obj'.Defaults = obj.Defaults ∧
      (∀ a, a ≠ p → h'[a]? = h[a]?) ∧
      ∀ k, obj'.Map.lookup k =
        match lastValue k bs with
        | some v => some v
        | none => obj.Map.lookup k := by
  intro bs
  induction bs with
  | nil =>
    intro h n obj hp _
    exact ⟨h, obj, by simp [readLoop], hp, rfl, fun _ _ => rfl, fun k => by simp [lastValue]⟩
  | cons b rest ih =>
    intro h n obj hp hall
    have hrest : ∀ b' ∈ rest, ¬ Malformed b' :=
      fun b' hb' => hall b' (List.mem_cons_of_mem _ hb')
    rcases line_cases b with hs | ⟨k0, v0, hd⟩ | hm
    · obtain ⟨h', obj', hloop, hp', hdef, hother, hlook⟩ :=
        ih h (n + b.utf8ByteSize) obj hp hrest
      refine ⟨h', obj', ?_, hp', hdef, hother, ?_⟩
      · simp only [readLoop, readLine_skipped p h n b hs, hloop, List.map_cons,
          List.sum_cons, Nat.add_assoc]
      · intro k
        rw [hlook k]
        have he : entryOf b = none := by simp [entryOf, hs]
        cases hl : lastValue k rest <;> simp [lastValue, hl, he]
    · have hp1 : (h.set p { obj with Map := obj.Map.insert k0 v0 })[p]? =
          some { obj with Map := obj.Map.insert k0 v0 } := getElem?_set_self_of_some hp
      obtain ⟨h', obj', hloop, hp', hdef, hother, hlook⟩ :=
        ih (h.set p { obj with Map := obj.Map.insert k0 v0 }) (n + b.utf8ByteSize)
          { obj with Map := obj.Map.insert k0 v0 } hp1 hrest
      refine ⟨h', obj', ?_, hp', hdef, ?_, ?_⟩
      · simp only [readLoop, readLine_defines p h n b k0 v0 hd, Put, hp, hloop,
          List.map_cons, List.sum_cons, Nat.add_assoc]
      · intro a ha
        rw [hother a ha, getElem?_set_other ha]
      · intro k
        rw [hlook k]
        have he := (entryOf_eq_some_iff b k0 v0).mpr hd
        cases hl : lastValue k rest with
        | some w => simp [lastValue, hl]
        | none =>
          by_cases hk : k0 = k
          · subst hk
            simp [lastValue, hl, he, AList.lookup_insert]
          · simp [lastValue, hl, he, hk, AList.lookup_insert_ne (Ne.symm hk)]
    · exact absurd hm (hall b (List.mem_cons_self _ _))

/-! ### The scanner -/

theorem utf8ByteSize_eq_utf8Len (r : String) : r.utf8ByteSize = String.utf8Len r.data := by
  cases r
  rfl

theorem utf8Len_dropCR_le (l : List Char) :
    String.utf8Len (dropCR l) ≤ String.utf8Len l := by
  unfold dropCR
  split
  · exact String.utf8Len_le_of_prefix (List.dropLast_prefix l)
  · exact Nat.le_refl _

/-- The bytes of the content are the bytes of its lines and one byte per newline. -/
theorem utf8Len_eq_rawLines (data : List Char) :
    String.utf8Len data =
      ((rawLines data).map String.utf8Len).sum + data.count '\n' := by
  induction data with
  | nil => simp [rawLines]
  | cons c cs ih =>
    by_cases hc : c = '\n'
    · subst hc
      have h1 : ('\n' : Char).utf8Size = 1 := by decide
      simp only [rawLines, if_true, List.map_cons, List.sum_cons, String.utf8Len_nil,
        String.utf8Len_cons, List.count_cons_self, h1]
      omega
    · have hcount : (c :: cs).count '\n' = cs.count '\n' := by
        rw [List.count_cons_of_ne (Ne.symm hc)]
      cases hr : rawLines cs with
      | nil =>
        rw [hr] at ih
        simp only [rawLines, hc, if_false, hr, List.map_cons, List.sum_cons, List.map_nil,
          List.sum_nil, String.utf8Len_cons, String.utf8Len_nil, hcount]
        simp only [List.map_nil, List.sum_nil] at ih
        omega
      | cons l ls =>
        rw [hr] at ih
        simp only [rawLines, hc, if_false, hr, List.map_cons, List.sum_cons,
          String.utf8Len_cons, hcount]
        simp only [List.map_cons, List.sum_cons] at ih
        omega

theorem scanTokens_sum_le : ∀ ls : List (List Char),
    ((scanTokens ls).1.map String.utf8ByteSize).sum ≤ (ls.map String.utf8Len).sum := by
  intro ls
  induction ls with
  | nil => simp [scanTokens]
  | cons l rest ih =>
    by_cases hfit : String.utf8Len l < MaxScanTokenSize
    · have hd := utf8Len_dropCR_le l
      simp only [scanTokens, String.utf8ByteSize_mk, hfit, if_true, List.map_cons,
        List.sum_cons]
      omega
    · simp [scanTokens, hfit]

/-- When every line fits into the buffer, all lines are delivered and `Err()` is nil. -/
theorem scanTokens_fit : ∀ ls : List (List Char),
    (∀ l ∈ ls, String.utf8ByteSize ⟨l⟩ < MaxScanTokenSize) →
    scanTokens ls = (ls.map (fun l => (⟨dropCR l⟩ : String)), none) := by
  intro ls
  induction ls with
  | nil => intro _; rfl
  | cons l rest ih =>
    intro hall
    have hfit := hall l (List.mem_cons_self _ _)
    have hrest := ih (fun l' hl' => hall l' (List.mem_cons_of_mem _ hl'))
    simp only [String.utf8ByteSize_mk] at hfit
    simp [scanTokens, hfit, hrest]

/-- When `Err()` is nil every line of the content has been delivered. -/
theorem scanTokens_no_err : ∀ ls : List (List Char), (scanTokens ls).2 = none →
    (scanTokens ls).1 = ls.map (fun l => (⟨dropCR l⟩ : String)) := by
  intro ls
  induction ls with
  | nil => intro _; rfl
  | cons l rest ih =>
    intro herr
    by_cases hfit : String.utf8Len l < MaxScanTokenSize
    · simp only [scanTokens, String.utf8ByteSize_mk, hfit, if_true] at herr ⊢
      simp only [List.map_cons, ih herr]
    · simp [scanTokens, hfit] at herr

theorem rawLines_cons_ne (c : Char) (cs : List Char) (hc : c ≠ '\n') :
    rawLines (c :: cs) =
      match rawLines cs with
      | [] => [[c]]
      | l :: ls => (c :: l) :: ls := by
  simp only [rawLines, hc, if_false]

theorem rawLines_no_newline : ∀ l : List Char, '\n' ∉ l → l ≠ [] → rawLines l = [l] := by
  intro l
  induction l with
  | nil => intro _ hne; exact absurd rfl hne
  | cons c cs ih =>
    intro hno _
    have hc : c ≠ '\n' := fun hEq => hno (by simp [hEq])
    have hcs : '\n' ∉ cs := fun hm => hno (List.mem_cons_of_mem _ hm)
    rw [rawLines_cons_ne c cs hc]
    by_cases hnil : cs = []
    · subst hnil
      rfl
    · rw [ih hcs hnil]

theorem rawLines_line_append (l rest : List Char) (hno : '\n' ∉ l) :
    rawLines (l ++ '\n' :: rest) = l :: rawLines rest := by
  induction l with
  | nil => simp [rawLines]
  | cons c cs ih =>
    have hc : c ≠ '\n' := fun hEq => hno (by simp [hEq])
    have hcs : '\n' ∉ cs := fun hm => hno (List.mem_cons_of_mem _ hm)
    rw [List.cons_append, rawLines_cons_ne c _ hc, ih hcs]

theorem utf8Len_replicate_x (n : Nat) : String.utf8Len (List.replicate n 'x') = n := by
  induction n with
  | zero => rfl
  | succ n ih =>
    have h1 : ('x' : Char).utf8Size = 1 := by decide
    simp [List.replicate_succ, String.utf8Len_cons, ih, h1]

theorem ReadFrom_of_readLoop (h : Heap) (p : Addr) (r : String) (h' : Heap) (n : Nat)
    (hloop : readLoop p (Scan r).1 h 0 = some (h', n)) :
    ReadFrom h p r = some { heap := h', n := n, err := (Scan r).2 } := by
  unfold ReadFrom
  simp only [hloop]

theorem ReadFrom_err (h : Heap) (p : Addr) (r : String) (res : IOResult)
    (hr : ReadFrom h p r = some res) : res.err = (Scan r).2 := by
  unfold ReadFrom at hr
  cases hl : readLoop p (Scan r).1 h 0 with
  | none => simp [hl] at hr
  | some hn =>
    simp only [hl, Option.some.injEq] at hr
    rw [← hr]

/-- A comment line of `#` and `n` letters, too long for the scanner's buffer. -/
theorem long_comment_line (s : String) (n : Nat)
    (hs : s.data = '#' :: List.replicate n 'x') (hn : MaxScanTokenSize ≤ n + 1) :
    (∀ l ∈ rawLines s.data, Skipped ⟨dropCR l⟩) ∧ Scan s = ([], some ErrTooLong) := by
  have hno : '\n' ∉ '#' :: List.replicate n 'x' := by
    intro hm
    rcases List.mem_cons.mp hm with hEq | hm'
    · exact absurd hEq (by decide)
    · exact absurd (List.eq_of_mem_replicate hm') (by decide)
  have hraw : rawLines s.data = ['#' :: List.replicate n 'x'] := by
    rw [hs]
    exact rawLines_no_newline _ hno (by simp)
  have hlast : ∀ c, ('#' :: List.replicate n 'x').getLast? = some c →
      c = '#' ∨ c = 'x' := by
    intro c hc
    rw [List.getLast?_cons, List.getLast?_replicate] at hc
    by_cases h0 : n = 0
    · simp [h0] at hc
      exact Or.inl hc.symm
    · simp [h0] at hc
      exact Or.inr hc.symm
  have hcr : dropCR ('#' :: List.replicate n 'x') = '#' :: List.replicate n 'x' := by
    unfold dropCR
    rw [if_neg]
    intro hc
    rcases hlast _ hc with hEq | hEq
    · exact absurd hEq (by decide)
    · exact absurd hEq (by decide)
  have htrim : (TrimSpace ⟨'#' :: List.replicate n 'x'⟩).data =
      '#' :: List.replicate n 'x' := by
    apply TrimSpace_eq_self
    · intro c hc
      simp only [List.head?_cons, Option.some.injEq] at hc
      rw [← hc]
      decide
    · intro c hc
      rcases hlast c hc with rfl | rfl <;> decide
  refine ⟨?_, ?_⟩
  · intro l hl
    rw [hraw, List.mem_singleton] at hl
    subst hl
    rw [hcr]
    exact Or.inr (by rw [htrim]; rfl)
  · have hsize : ¬ String.utf8ByteSize ⟨'#' :: List.replicate n 'x'⟩ < MaxScanTokenSize := by
      have h1 : ('#' : Char).utf8Size = 1 := by decide
      rw [String.utf8ByteSize_mk, String.utf8Len_cons, utf8Len_replicate_x, h1]
      omega
    unfold Scan
    rw [hraw]
    simp only [scanTokens, hsize, if_false]

/-! ### `WriteTo` -/

/-- For an order that permutes, the entries visited by `range` are the entries of the
map. -/
theorem rangeEntries_perm (order : RangeOrder) (hord : ∀ l, (order l).Perm l)
    (m : GoMap String) :
    (rangeEntries order m).Perm (m.entries.map (fun e => (e.1, e.2))) := by
  unfold rangeEntries
  refine ((hord m.keys).filterMap _).trans ?_
  have hkeys : m.keys = m.entries.map Sigma.fst := rfl
  rw [hkeys, List.filterMap_map]
  have hcongr : ∀ e ∈ m.entries,
      ((fun k => (m.lookup k).map (fun v => (k, v))) ∘ Sigma.fst) e =
        (some ∘ (fun e : Sigma (fun _ : String => String) => (e.1, e.2))) e := by
    intro e he
    have hl : m.lookup e.1 = some e.2 := by
      have := (AList.mem_lookup_iff (a := e.1) (b := e.2) (s := m)).mpr he
      exact this
    simp [hl]
  rw [List.filterMap_congr hcongr, List.filterMap_eq_map]

/-- On a sink whose writes never fail `writeLoop` performs all the writes and counts all
the bytes. -/
theorem writeLoop_ok {σ : Type} (w : Writer σ)
    (hw : ∀ s b, (w.Write s b).2 = (b.utf8ByteSize, none)) :
    ∀ (es : List (String × String)) (s : σ) (n : Nat),
      writeLoop w es s n =
        ((chunksOf es).foldl (fun st b => (w.Write st b).1) s,
          n + (es.map (fun e => e.1.utf8ByteSize + e.2.utf8ByteSize + 2)).sum, none) := by
  have hwr : ∀ s b, w.Write s b = ((w.Write s b).1, b.utf8ByteSize, none) := by
    intro s b
    have := hw s b
    exact Prod.ext rfl this
  intro es
  induction es with
  | nil => intro s n; simp [writeLoop, chunksOf]
  | cons e rest ih =>
    intro s n
    obtain ⟨k, v⟩ := e
    have e1 : ("=" : String).utf8ByteSize = 1 := by decide
    have e2 : ("\n" : String).utf8ByteSize = 1 := by decide
    unfold writeLoop
    rw [hwr s k]
    simp only
    rw [hwr (w.Write s k).1 "="]
    simp only
    rw [hwr (w.Write (w.Write s k).1 "=").1 v]
    simp only
    rw [hwr (w.Write (w.Write (w.Write s k).1 "=").1 v).1 "\n"]
    simp only
    rw [ih]
    simp only [chunksOf, List.foldl_cons, List.map_cons, List.sum_cons, e1, e2]
    refine Prod.ext rfl (Prod.ext ?_ rfl)
    simp only
    omega

theorem bufferWriter_foldl : ∀ (es : List (String × String)) (out : String),
    (chunksOf es).foldl (fun st b => (bufferWriter.Write st b).1) out =
      out ++ ⟨serialize es⟩ := by
  intro es
  induction es with
  | nil =>
    intro out
    apply String.ext
    simp [chunksOf, serialize, String.data_append]
  | cons e rest ih =>
    intro out
    simp only [chunksOf, List.foldl_cons]
    rw [ih]
    apply String.ext
    simp [bufferWriter, serialize, lineOf, String.data_append]

/-! ### Round trip -/

theorem lineOf_head (k v : String) (c : Char)
    (hc : (lineOf (k, v)).head? = some c) : k.data.head? = some c ∨ c = '=' := by
  unfold lineOf at hc
  cases hk : k.data with
  | nil =>
    simp only [hk, List.nil_append, List.head?_cons, Option.some.injEq] at hc
    exact Or.inr hc.symm
  | cons d ds =>
    simp only [hk, List.cons_append, List.head?_cons, Option.some.injEq] at hc
    exact Or.inl (by rw [hc, List.head?_cons])

theorem lineOf_last (k v : String) (c : Char)
    (hc : (lineOf (k, v)).getLast? = some c) : v.data.getLast? = some c ∨ c = '=' := by
  unfold lineOf at hc
  rw [List.getLast?_append, List.getLast?_cons] at hc
  cases hv : v.data.getLast? with
  | none =>
    simp only [hv, Option.getD_none, Option.or_some, Option.some.injEq] at hc
    exact Or.inr hc.symm
  | some d =>
    simp only [hv, Option.getD_some, Option.or_some, Option.some.injEq] at hc
    exact Or.inl (by rw [hc])

/-- The line written for a plain entry has no newline, is delivered unchanged by the
scanner and defines the entry. -/
theorem lineOf_plain (k v : String) (hpl : Plain k v) :
    '\n' ∉ lineOf (k, v) ∧ dropCR (lineOf (k, v)) = lineOf (k, v) ∧
      Defines ⟨lineOf (k, v)⟩ k v := by
  obtain ⟨hke, hkn, hvn, hkc, hks, hvs, -⟩ := hpl
  have hhead : ∀ c, (lineOf (k, v)).head? = some c → isSpace c = false ∧ c ≠ '#' := by
    intro c hc
    rcases lineOf_head k v c hc with hk | rfl
    · refine ⟨?_, ?_⟩
      · simpa [startsWithSpace, hk] using hks
      · rintro rfl
        exact hkc hk
    · exact ⟨by decide, by decide⟩
  have hlast : ∀ c, (lineOf (k, v)).getLast? = some c → isSpace c = false := by
    intro c hc
    rcases lineOf_last k v c hc with hv | rfl
    · simpa [endsWithSpace, hv] using hvs
    · decide
  have htrim : (TrimSpace ⟨lineOf (k, v)⟩).data = lineOf (k, v) :=
    TrimSpace_eq_self _ (fun c hc => (hhead c hc).1) hlast
  refine ⟨?_, ?_, ⟨?_, by rw [htrim]; rfl, hke⟩⟩
  · intro hm
    unfold lineOf at hm
    rcases List.mem_append.mp hm with h1 | h2
    · exact hkn h1
    · rcases List.mem_cons.mp h2 with h3 | h4
      · exact absurd h3 (by decide)
      · exact hvn h4
  · unfold dropCR
    rw [if_neg]
    intro hc
    have := hlast _ hc
    revert this
    decide
  · rintro (he | hc)
    · rw [htrim] at he
      unfold lineOf at he
      simp at he
    · rw [htrim] at hc
      exact (hhead _ hc).2 rfl

theorem rawLines_serialize : ∀ es : List (String × String),
    (∀ e ∈ es, '\n' ∉ lineOf e) → rawLines (serialize es) = es.map lineOf := by
  intro es
  induction es with
  | nil => intro _; rfl
  | cons e rest ih =>
    intro hall
    have he := hall e (List.mem_cons_self _ _)
    have hrest := ih (fun e' he' => hall e' (List.mem_cons_of_mem _ he'))
    simp only [serialize, List.map_cons]
    rw [rawLines_line_append _ _ he, hrest]

/-- The scanner delivers the lines written for plain entries, one per entry. -/
theorem Scan_serialize (es : List (String × String)) (hpl : ∀ e ∈ es, Plain e.1 e.2) :
    Scan ⟨serialize es⟩ = (es.map (fun e => (⟨lineOf e⟩ : String)), none) := by
  have hno : ∀ e ∈ es, '\n' ∉ lineOf e :=
    fun e he => (lineOf_plain e.1 e.2 (hpl e he)).1
  have hfit : ∀ l ∈ es.map lineOf, String.utf8ByteSize ⟨l⟩ < MaxScanTokenSize := by
    intro l hl
    obtain ⟨e, he, rfl⟩ := List.mem_map.mp hl
    exact (hpl e he).2.2.2.2.2.2
  unfold Scan
  simp only [rawLines_serialize es hno, scanTokens_fit _ hfit, List.map_map]
  refine Prod.ext ?_ rfl
  apply List.map_congr_left
  intro e he
  simp only [Function.comp, (lineOf_plain e.1 e.2 (hpl e he)).2.1]

/-- With pairwise distinct keys, the lines written for plain entries give every key the
value of its entry. -/
theorem lastValue_serialize (es : List (String × String))
    (hpl : ∀ e ∈ es, Plain e.1 e.2) (hnd : (es.map Prod.fst).Nodup) (k : String) :
    (∀ v, (k, v) ∈ es →
      lastValue k (es.map (fun e => (⟨lineOf e⟩ : String))) = some v) ∧
    ((∀ v, (k, v) ∉ es) →
      lastValue k (es.map (fun e => (⟨lineOf e⟩ : String))) = none) := by
  have hdef : ∀ e ∈ es, Defines ⟨lineOf e⟩ e.1 e.2 :=
    fun e he => (lineOf_plain e.1 e.2 (hpl e he)).2.2
  constructor
  · intro v hmem
    obtain ⟨front, back, hsplit⟩ := List.append_of_mem hmem
    have hk : k ∉ back.map Prod.fst := by
      rw [hsplit, List.map_append, List.map_cons] at hnd
      exact (List.nodup_cons.mp (List.nodup_append.mp hnd).2.1).1
    rw [hsplit, List.map_append, List.map_cons]
    apply lastValue_complete
    · exact hdef (k, v) hmem
    · intro b' hb' v' hd'
      obtain ⟨e, he, rfl⟩ := List.mem_map.mp hb'
      have hees : e ∈ es := by
        rw [hsplit]
        exact List.mem_append_right _ (List.mem_cons_of_mem _ he)
      have := (Defines_unique _ _ _ _ _ (hdef e hees) hd').1
      exact hk (List.mem_map.mpr ⟨e, he, this⟩)
  · intro hno
    rw [lastValue_eq_none_iff]
    intro b' hb' v' hd'
    obtain ⟨e, he, rfl⟩ := List.mem_map.mp hb'
    obtain ⟨hk, hv⟩ := Defines_unique _ _ _ _ _ (hdef e he) hd'
    apply hno e.2
    rw [← hk]
    exact he

/-- The input `a=1`, a line `k=x...x` too long for the scanner's buffer, `a=9`: all three
lines are well formed, but only the first is delivered. -/
theorem long_line_scan (s : String) (line : List Char) (n : Nat)
    (hline : line = 'k' :: '=' :: List.replicate n 'x')
    (hs : s.data =
      ['a', '=', '1'] ++ '\n' :: (line ++ '\n' :: (['a', '=', '9'] ++ '\n' :: [])))
    (hn : MaxScanTokenSize ≤ n + 2) :
    linesOf s = ["a=1", ⟨line⟩] ++ "a=9" :: [] ∧
    (∀ b ∈ linesOf s, ¬ Skipped b → '=' ∈ (TrimSpace b).data) ∧
    Scan s = (["a=1"], some ErrTooLong) := by
  have hno : '\n' ∉ line := by
    rw [hline]
    intro hm
    rcases List.mem_cons.mp hm with hEq | hm1
    · exact absurd hEq (by decide)
    · rcases List.mem_cons.mp hm1 with hEq | hm2
      · exact absurd hEq (by decide)
      · exact absurd (List.eq_of_mem_replicate hm2) (by decide)
  have hraw : rawLines s.data = [['a', '=', '1'], line, ['a', '=', '9']] := by
    rw [hs, rawLines_line_append _ _ (by decide), rawLines_line_append _ _ hno,
      rawLines_line_append _ _ (by decide)]
    rfl
  have hlast : ∀ c, line.getLast? = some c → c = '=' ∨ c = 'x' := by
    intro c hc
    rw [hline, List.getLast?_cons_cons, List.getLast?_cons, List.getLast?_replicate] at hc
    by_cases h0 : n = 0
    · simp [h0] at hc
      exact Or.inl hc.symm
    · simp [h0] at hc
      exact Or.inr hc.symm
  have hcr : dropCR line = line := by
    unfold dropCR
    rw [if_neg]
    intro hc
    rcases hlast _ hc with hEq | hEq
    · exact absurd hEq (by decide)
    · exact absurd hEq (by decide)
  have htrim : (TrimSpace ⟨line⟩).data = line := by
    apply TrimSpace_eq_self
    · intro c hc
      rw [hline] at hc
      simp only [List.head?_cons, Option.some.injEq] at hc
      rw [← hc]
      decide
    · intro c hc
      rcases hlast c hc with rfl | rfl <;> decide
  have hlines : linesOf s = ["a=1", ⟨line⟩] ++ "a=9" :: [] := by
    have d1 : dropCR ['a', '=', '1'] = ['a', '=', '1'] := by decide
    have d3 : dropCR ['a', '=', '9'] = ['a', '=', '9'] := by decide
    unfold linesOf
    rw [hraw]
    simp only [List.map_cons, List.map_nil, d1, d3, hcr]
    rfl
  refine ⟨hlines, ?_, ?_⟩
  · intro b hb _
    rw [hlines] at hb
    simp only [List.cons_append, List.nil_append, List.mem_cons, List.mem_singleton,
      List.not_mem_nil, or_false] at hb
    rcases hb with rfl | rfl | rfl
    · decide
    · rw [htrim, hline]
      simp
    · decide
  · have h1 : String.utf8ByteSize ⟨['a', '=', '1']⟩ < MaxScanTokenSize := by decide
    have h2 : ¬ String.utf8ByteSize ⟨line⟩ < MaxScanTokenSize := by
      have e1 : ('k' : Char).utf8Size = 1 := by decide
      have e2 : ('=' : Char).utf8Size = 1 := by decide
      rw [hline, String.utf8ByteSize_mk, String.utf8Len_cons, String.utf8Len_cons,
        utf8Len_replicate_x, e1, e2]
      omega
    have d1 : dropCR ['a', '=', '1'] = ['a', '=', '1'] := by decide
    unfold Scan
    rw [hraw]
    simp only [scanTokens, h1, h2, if_true, if_false, d1]

/-! ## Claims -/

/-- C1: shadowing. For every heap and every valid store `p`, `p.Put(k, v)` succeeds and
afterwards `p.Get(k)` returns `(v, true)` with any positive fuel, whatever the stores of
the defaults chain hold. -/
theorem C1_put_then_get (h : Heap) (p : Addr) (k v : String) (hp : p < h.length) :
    ∃ h', Put h p k v = some h' ∧ ∀ fuel, Get (fuel + 1) h' p k = some (v, true) := by
  obtain ⟨obj, hobj⟩ : ∃ obj, h[p]? = some obj := ⟨h[p], by simp [hp]⟩
  refine ⟨h.set p { obj with Map := obj.Map.insert k v }, by simp [Put, hobj], ?_⟩
  intro fuel
  simp [Get, getElem?_set_self_of_some hobj, AList.lookup_insert]

/-- C1 witness: a store with `k = "local"` over defaults holding `k = "deep"`. -/
theorem C1_put_then_get_witness :
    (1 < [({ Map := AList.insert "k" "deep" ∅, Defaults := none } : Properties),
          { Map := ∅, Defaults := some 0 }].length) ∧
    ∃ h', Put [({ Map := AList.insert "k" "deep" ∅, Defaults := none } : Properties),
          { Map := ∅, Defaults := some 0 }] 1 "k" "local" = some h' ∧
      ∀ fuel, Get (fuel + 1) h' 1 "k" = some ("local", true) :=
  ⟨by decide, C1_put_then_get _ 1 "k" "local" (by decide)⟩

/-- C2: fallback. When `k` is absent from the local map of `s` and the defaults of `s` is
`d`, `s.Get(k)` is `d.Get(k)` (one more level of recursion); in particular when `d`
holds `k = v2` locally, `s.Get(k)` returns `(v2, true)`. -/
theorem C2_get_falls_back (h : Heap) (s d : Addr) (obj : Properties) (k : String)
    (hs : h[s]? = some obj) (hd : obj.Defaults = some d)
    (habs : obj.Map.lookup k = none) :
    (∀ fuel, Get (fuel + 1) h s k = Get fuel h d k) ∧
    (∀ v2, localGet h d k = some v2 → ∀ fuel, Get (fuel + 2) h s k = some (v2, true)) := by
  have step : ∀ fuel, Get (fuel + 1) h s k = Get fuel h d k := by
    intro fuel
    simp [Get, hs, hd, habs]
  refine ⟨step, ?_⟩
  intro v2 hv fuel
  rw [step]
  unfold localGet at hv
  cases hdo : h[d]? with
  | none => simp [hdo] at hv
  | some dobj =>
    simp [hdo] at hv
    simp [Get, hdo, hv]

/-- C2 witness: `s` (address 1) is empty, its defaults (address 0) holds `k = "v2"`. -/
theorem C2_get_falls_back_witness :
    (∀ fuel, Get (fuel + 1)
        [({ Map := AList.insert "k" "v2" ∅, Defaults := none } : Properties),
          { Map := ∅, Defaults := some 0 }] 1 "k" =
      Get fuel [({ Map := AList.insert "k" "v2" ∅, Defaults := none } : Properties),
          { Map := ∅, Defaults := some 0 }] 0 "k") ∧
    (∀ v2, localGet [({ Map := AList.insert "k" "v2" ∅, Defaults := none } : Properties),
          { Map := ∅, Defaults := some 0 }] 0 "k" = some v2 →
      ∀ fuel, Get (fuel + 2)
        [({ Map := AList.insert "k" "v2" ∅, Defaults := none } : Properties),
          { Map := ∅, Defaults := some 0 }] 1 "k" = some (v2, true)) :=
  C2_get_falls_back _ 1 0 { Map := ∅, Defaults := some 0 } "k" rfl rfl (by decide)

/-- C3: for a store with a finite defaults chain `as` and enough fuel, `Get` returns a
result (never a failure); the flag is `false` exactly when `k` is absent from the
local map of every store of the chain (and the value is then the empty string); when
the flag is `true` the value is the local entry of the first store of the chain that
contains `k`. -/
theorem C3_get_along_chain (n : Nat) (h : Heap) (p : Addr) (as : List Addr)
    (hc : chainOf n h p = some as) (fuel : Nat) (hf : as.length ≤ fuel) (k : String) :
    ∃ v ok, Get fuel h p k = some (v, ok) ∧
      (ok = false ↔ ∀ a ∈ as, localGet h a k = none) ∧
      (ok = false → v = "") ∧
      (ok = true → ∃ front a back, as = front ++ a :: back ∧
        (∀ b ∈ front, localGet h b k = none) ∧ localGet h a k = some v) := by
  refine ⟨(resolve h as k).1, (resolve h as k).2, Get_eq_resolve n h p as hc fuel hf k,
    resolve_false_iff h as k, resolve_false_value h as k, resolve_true_nearest h as k⟩

/-- C3 witness: a chain of three stores, the key is held by the second and the third. -/
theorem C3_get_along_chain_witness :
    ∃ v ok, Get 3
        [({ Map := AList.insert "k" "deep" ∅, Defaults := none } : Properties),
          { Map := AList.insert "k" "mid" ∅, Defaults := some 0 },
          { Map := AList.insert "j" "top" ∅, Defaults := some 1 }] 2 "k" = some (v, ok) ∧
      (ok = false ↔ ∀ a ∈ [2, 1, 0], localGet
        [({ Map := AList.insert "k" "deep" ∅, Defaults := none } : Properties),
          { Map := AList.insert "k" "mid" ∅, Defaults := some 0 },
          { Map := AList.insert "j" "top" ∅, Defaults := some 1 }] a "k" = none) ∧
      (ok = false → v = "") ∧
      (ok = true → ∃ front a back, [2, 1, 0] = front ++ a :: back ∧
        (∀ b ∈ front, localGet
          [({ Map := AList.insert "k" "deep" ∅, Defaults := none } : Properties),
            { Map := AList.insert "k" "mid" ∅, Defaults := some 0 },
            { Map := AList.insert "j" "top" ∅, Defaults := some 1 }] b "k" = none) ∧
        localGet
          [({ Map := AList.insert "k" "deep" ∅, Defaults := none } : Properties),
            { Map := AList.insert "k" "mid" ∅, Defaults := some 0 },
            { Map := AList.insert "j" "top" ∅, Defaults := some 1 }] a "k" = some v) :=
  C3_get_along_chain 3 _ 2 [2, 1, 0] (by decide) 3 (by decide) "k"

/-- C4: removal locality. `s.Remove(k)` succeeds on a valid store `s` with defaults
`d`; afterwards `s.Get(k)` is `d.Get(k)`, every cell other than `s` is unchanged, `s`
keeps its defaults pointer and its local entries for every other key; when the chain of
`s` is finite, `d` and every deeper store are unchanged and every `Get` on `d` is
unchanged, so if `d` (a store other than `s`) holds `k = v2` then `s.Get(k)` returns
`(v2, true)`. -/
theorem C4_remove_is_local (h : Heap) (s d : Addr) (obj : Properties) (k : String)
    (hs : h[s]? = some obj) (hd : obj.Defaults = some d) :
    ∃ h', Remove h s k = some h' ∧
      (∀ fuel, Get (fuel + 1) h' s k = Get fuel h' d k) ∧
      (∀ a, a ≠ s → h'[a]? = h[a]?) ∧
      (∃ obj', h'[s]? = some obj' ∧ obj'.Defaults = obj.Defaults ∧
        obj'.Map.lookup k = none ∧
        ∀ k', k' ≠ k → obj'.Map.lookup k' = obj.Map.lookup k') ∧
      (∀ n as, chainOf n h s = some as →
        (∀ a ∈ as.tail, h'[a]? = h[a]?) ∧
        (∀ fuel key, Get fuel h' d key = Get fuel h d key) ∧
        (∀ fuel, Get (fuel + 1) h' s k = Get fuel h d k)) ∧
      (∀ v2, d ≠ s → localGet h d k = some v2 →
        ∀ fuel, Get (fuel + 2) h' s k = some (v2, true)) := by
  have hs' : (h.set s { obj with Map := obj.Map.erase k })[s]? =
      some { obj with Map := obj.Map.erase k } := getElem?_set_self_of_some hs
  have hstep : ∀ fuel, Get (fuel + 1) (h.set s { obj with Map := obj.Map.erase k }) s k =
      Get fuel (h.set s { obj with Map := obj.Map.erase k }) d k := by
    intro fuel
    simp only [Get, hs']
    simp [AList.lookup_erase, hd]
  refine ⟨h.set s { obj with Map := obj.Map.erase k }, by simp [Remove, hs], hstep,
    fun a ha => getElem?_set_other ha, ⟨_, hs', rfl, AList.lookup_erase k obj.Map, ?_⟩,
    ?_, ?_⟩
  · intro k' hk
    exact AList.lookup_erase_ne hk
  · intro n as hc
    have hnot := chainOf_head_not_mem_tail n h s as hc
    have htail : ∀ a ∈ as.tail,
        (h.set s { obj with Map := obj.Map.erase k })[a]? = h[a]? := by
      intro a ha
      exact getElem?_set_other (fun hEq => hnot (hEq ▸ ha))
    obtain ⟨m, rfl⟩ : ∃ m, n = m + 1 := by
      cases n with
      | zero => simp [chainOf] at hc
      | succ m => exact ⟨m, rfl⟩
    have hcd := chainOf_defaults m h s d obj as hc hs hd
    have hget := Get_congr_chain m h _ d as.tail hcd htail
    refine ⟨htail, hget, ?_⟩
    intro fuel
    rw [hstep, hget]
  · intro v2 hne hv fuel
    rw [hstep]
    unfold localGet at hv
    cases hdo : h[d]? with
    | none => simp [hdo] at hv
    | some dobj =>
      simp [hdo] at hv
      simp [Get, getElem?_set_other hne, hdo, hv]

/-- C4 witness: `s` (address 1) holds `k = "v1"`, its defaults (address 0) holds
`k = "v2"`. -/
theorem C4_remove_is_local_witness :
    ∃ h', Remove [({ Map := AList.insert "k" "v2" ∅, Defaults := none } : Properties),
        { Map := AList.insert "k" "v1" ∅, Defaults := some 0 }] 1 "k" = some h' ∧
      ∀ fuel, Get (fuel + 2) h' 1 "k" = some ("v2", true) := by
  obtain ⟨h', hrem, -, -, -, -, hv⟩ := C4_remove_is_local
    [({ Map := AList.insert "k" "v2" ∅, Defaults := none } : Properties),
      { Map := AList.insert "k" "v1" ∅, Defaults := some 0 }] 1 0
    { Map := AList.insert "k" "v1" ∅, Defaults := some 0 } "k" rfl rfl
  exact ⟨h', hrem, hv "v2" (by decide) (by decide)⟩

/-- C5: `Put` is local and unvalidated. `s.Put(k, v)` succeeds on every valid store for
every `k` and `v` (the empty strings included); it leaves every cell other than `s`
unchanged (in particular the stores of a finite defaults chain below `s`), keeps the
defaults pointer of `s`, keeps the local entry of every key other than `k`, and leaves
`s.Get(k')` unchanged for every `k'` other than `k`. -/
theorem C5_put_is_local (h : Heap) (s : Addr) (obj : Properties) (k v : String)
    (hs : h[s]? = some obj) :
    ∃ h', Put h s k v = some h' ∧
      (∀ a, a ≠ s → h'[a]? = h[a]?) ∧
      (∀ n as, chainOf n h s = some as → ∀ a ∈ as.tail, h'[a]? = h[a]?) ∧
      (∃ obj', h'[s]? = some obj' ∧ obj'.Defaults = obj.Defaults ∧
        obj'.Map.lookup k = some v ∧
        ∀ k', k' ≠ k → obj'.Map.lookup k' = obj.Map.lookup k') ∧
      (∀ k', k' ≠ k → ∀ fuel, Get fuel h' s k' = Get fuel h s k') := by
  have hs' : (h.set s { obj with Map := obj.Map.insert k v })[s]? =
      some { obj with Map := obj.Map.insert k v } := getElem?_set_self_of_some hs
  refine ⟨h.set s { obj with Map := obj.Map.insert k v }, by simp [Put, hs],
    fun a ha => getElem?_set_other ha, ?_,
    ⟨_, hs', rfl, AList.lookup_insert obj.Map, fun k' hk => AList.lookup_insert_ne hk⟩, ?_⟩
  · intro n as hc a ha
    have hnot := chainOf_head_not_mem_tail n h s as hc
    exact getElem?_set_other (fun hEq => hnot (hEq ▸ ha))
  · intro k' hk fuel
    apply Get_congr_cells
    intro a
    by_cases ha : a = s
    · subst ha
      simp [hs', hs, AList.lookup_insert_ne hk]
    · rw [getElem?_set_other ha]

/-- C5 witness: the empty key and the empty value are put into a store with defaults. -/
theorem C5_put_is_local_witness :
    ∃ h', Put [({ Map := AList.insert "j" "v2" ∅, Defaults := none } : Properties),
        { Map := AList.insert "j" "v1" ∅, Defaults := some 0 }] 1 "" "" = some h' ∧
      h'[0]? = some { Map := AList.insert "j" "v2" ∅, Defaults := none } ∧
      ∀ fuel, Get fuel h' 1 "j" =
        Get fuel [({ Map := AList.insert "j" "v2" ∅, Defaults := none } : Properties),
        { Map := AList.insert "j" "v1" ∅, Defaults := some 0 }] 1 "j" := by
  obtain ⟨h', hput, hother, -, -, hget⟩ := C5_put_is_local
    [({ Map := AList.insert "j" "v2" ∅, Defaults := none } : Properties),
      { Map := AList.insert "j" "v1" ∅, Defaults := some 0 }] 1
    { Map := AList.insert "j" "v1" ∅, Defaults := some 0 } "" "" rfl
  exact ⟨h', hput, by rw [hother 0 (by decide)]; rfl, hget "j" (by decide)⟩

/-- C6: `GetDefault(k, dflt)` is the value of `Get(k)` when `Get` reports found (the
empty string included) and `dflt` when `Get` reports not found; for a store with a finite
chain and enough fuel it returns a result. -/
theorem C6_getDefault_of_get (fuel : Nat) (h : Heap) (p : Addr) (k dflt : String) :
    (∀ v, Get fuel h p k = some (v, true) → GetDefault fuel h p k dflt = some v) ∧
    (∀ v, Get fuel h p k = some (v, false) → GetDefault fuel h p k dflt = some dflt) ∧
    (∀ n as, chainOf n h p = some as → as.length ≤ fuel →
      ∃ r, GetDefault fuel h p k dflt = some r) := by
  refine ⟨?_, ?_, ?_⟩
  · intro v hg
    simp [GetDefault, hg]
  · intro v hg
    simp [GetDefault, hg]
  · intro n as hc hf
    have hg := Get_eq_resolve n h p as hc fuel hf k
    cases hok : (resolve h as k).2 with
    | true => exact ⟨(resolve h as k).1, by simp [GetDefault, hg, hok]⟩
    | false => exact ⟨dflt, by simp [GetDefault, hg, hok]⟩

/-- C6 witness: a key found with the empty value, and a key found nowhere. -/
theorem C6_getDefault_of_get_witness :
    GetDefault 2 [({ Map := AList.insert "k" "" ∅, Defaults := none } : Properties),
        { Map := ∅, Defaults := some 0 }] 1 "k" "fallback" = some "" ∧
    GetDefault 2 [({ Map := AList.insert "k" "" ∅, Defaults := none } : Properties),
        { Map := ∅, Defaults := some 0 }] 1 "zz" "fallback" = some "fallback" :=
  ⟨(C6_getDefault_of_get 2 _ 1 "k" "fallback").1 "" (by decide),
   (C6_getDefault_of_get 2 _ 1 "zz" "fallback").2.1 "" (by decide)⟩

/-- C7: for a store with a finite defaults chain `as` and enough fuel, `Keys()` returns
a list without repetition whose elements are exactly the keys held locally by some
store of the chain, which are exactly the keys that `Get` reports as found. -/
theorem C7_keys_union (order : RangeOrder) (hord : ∀ l, (order l).Perm l)
    (n : Nat) (h : Heap) (p : Addr) (as : List Addr)
    (hc : chainOf n h p = some as) (fuel : Nat) (hf : as.length ≤ fuel) :
    ∃ ks, Keys order fuel h p = some ks ∧ ks.Nodup ∧
      (∀ k, k ∈ ks ↔ ∃ a ∈ as, ∃ v, localGet h a k = some v) ∧
      (∀ k, k ∈ ks ↔ ∃ v, Get fuel h p k = some (v, true)) := by
  obtain ⟨ks, hks, hnd, hloc, hres⟩ := Keys_spec order hord n h p as hc fuel hf
  refine ⟨ks, hks, hnd, hloc, ?_⟩
  intro k
  rw [hres, Get_eq_resolve n h p as hc fuel hf k]
  constructor
  · intro ht
    exact ⟨(resolve h as k).1, by rw [← ht]⟩
  · rintro ⟨v, hv⟩
    have := Option.some.inj hv
    rw [this]

/-- C7 witness: in the sample heap `S` (address 1) holds `a` and `b` locally and its
defaults `D` (address 0) holds `b` and `c`; `S.Keys()` is a list of exactly `a`, `b`,
`c`, each once. -/
theorem C7_keys_union_witness :
    (∃ ks, Keys List.reverse 2 sampleHeap 1 = some ks ∧ ks.Nodup ∧
      (∀ k, k ∈ ks ↔ ∃ a ∈ [1, 0], ∃ v, localGet sampleHeap a k = some v) ∧
      (∀ k, k ∈ ks ↔ ∃ v, Get 2 sampleHeap 1 k = some (v, true))) ∧
    ∃ ks, Keys List.reverse 2 sampleHeap 1 = some ks ∧ ks.Perm ["a", "b", "c"] :=
  ⟨C7_keys_union List.reverse List.reverse_perm 2 sampleHeap 1 [1, 0] (by decide) 2
    (by decide), ⟨["c", "b", "a"], by decide, by decide⟩⟩

/-- C8: for a store `p` with a finite defaults chain and enough fuel, `p.Filter(f)`
returns a store `r` whose local map holds `k = v` exactly when `f(k)` is true and
`p.Get(k)` returns `(v, true)`: the predicate sees keys only and the values are the
chain-resolved ones. -/
theorem C8_filter_entries (order : RangeOrder) (hord : ∀ l, (order l).Perm l)
    (n : Nat) (h : Heap) (p : Addr) (as : List Addr)
    (hc : chainOf n h p = some as) (fuel : Nat) (hf : as.length ≤ fuel)
    (f : String → Bool) :
    ∃ h' r robj, Filter order fuel h p f = some (h', r) ∧ h'[r]? = some robj ∧
      ∀ k v, robj.Map.lookup k = some v ↔
        (f k = true ∧ Get fuel h p k = some (v, true)) := by
  obtain ⟨h2, robj, hfil, -, hprop, -, hlook⟩ :=
    Filter_spec order hord n h p as hc fuel hf f
  refine ⟨h2, h.length, robj, hfil, hprop, ?_⟩
  intro k v
  rw [hlook k, Get_eq_resolve n h p as hc fuel hf k]
  cases hr : resolve h as k with
  | mk rv rok =>
    by_cases hfk : f k = true
    · cases rok with
      | true => simp [hfk]
      | false => simp [hfk]
    · simp [hfk]

/-- C8 witness: filtering `S` of the sample heap with the predicate "is not `a`". -/
theorem C8_filter_entries_witness :
    ∃ h' r robj, Filter id 2 sampleHeap 1 (fun k => k != "a") = some (h', r) ∧
      h'[r]? = some robj ∧
      ∀ k v, robj.Map.lookup k = some v ↔
        ((fun k => k != "a") k = true ∧ Get 2 sampleHeap 1 k = some (v, true)) :=
  C8_filter_entries id (fun l => List.Perm.refl l) 2 sampleHeap 1 [1, 0] (by decide) 2
    (by decide) (fun k => k != "a")

/-- C9: snapshot semantics of `Filter`. For a store with a finite chain and enough fuel,
`Filter` returns a newly allocated store `r` without a defaults pointer; every store
that existed before the call is unchanged; and a later `Put` or `Remove` on any
other store leaves every `Get` on `r` unchanged. -/
theorem C9_filter_snapshot (order : RangeOrder) (hord : ∀ l, (order l).Perm l)
    (n : Nat) (h : Heap) (p : Addr) (as : List Addr)
    (hc : chainOf n h p = some as) (fuel : Nat) (hf : as.length ≤ fuel)
    (f : String → Bool) :
    ∃ h' r robj, Filter order fuel h p f = some (h', r) ∧ r = h.length ∧
      h'[r]? = some robj ∧ robj.Defaults = none ∧
      (∀ a, a < h.length → h'[a]? = h[a]?) ∧
      (∀ a k v h'', a ≠ r → Put h' a k v = some h'' →
        ∀ fuel' key, Get fuel' h'' r key = Get fuel' h' r key) ∧
      (∀ a k h'', a ≠ r → Remove h' a k = some h'' →
        ∀ fuel' key, Get fuel' h'' r key = Get fuel' h' r key) := by
  obtain ⟨h2, robj, hfil, hold, hprop, hdef, -⟩ :=
    Filter_spec order hord n h p as hc fuel hf f
  have hchain : chainOf 1 h2 h.length = some [h.length] := by
    simp [chainOf, hprop, hdef]
  have hkeep : ∀ h'' : Heap, h''[h.length]? = h2[h.length]? →
      ∀ fuel' key, Get fuel' h'' h.length key = Get fuel' h2 h.length key := by
    intro h'' hcell
    exact Get_congr_chain 1 h2 h'' h.length [h.length] hchain
      (fun a ha => by rw [List.mem_singleton.mp ha]; exact hcell)
  refine ⟨h2, h.length, robj, hfil, rfl, hprop, hdef, hold, ?_, ?_⟩
  · intro a k v h'' ha hput
    apply hkeep
    unfold Put at hput
    cases hcell : h2[a]? with
    | none => simp [hcell] at hput
    | some o =>
      simp [hcell] at hput
      subst hput
      exact getElem?_set_other (Ne.symm ha)
  · intro a k h'' ha hrem
    apply hkeep
    unfold Remove at hrem
    cases hcell : h2[a]? with
    | none => simp [hcell] at hrem
    | some o =>
      simp [hcell] at hrem
      subst hrem
      exact getElem?_set_other (Ne.symm ha)

/-- C9 witness: `S` of the sample heap is filtered, then its defaults `D` is mutated. -/
theorem C9_filter_snapshot_witness :
    ∃ h' r robj, Filter id 2 sampleHeap 1 (fun _ => true) = some (h', r) ∧ r = 2 ∧
      h'[r]? = some robj ∧ robj.Defaults = none ∧
      (∀ a, a < 2 → h'[a]? = sampleHeap[a]?) ∧
      (∀ a k v h'', a ≠ r → Put h' a k v = some h'' →
        ∀ fuel' key, Get fuel' h'' r key = Get fuel' h' r key) ∧
      (∀ a k h'', a ≠ r → Remove h' a k = some h'' →
        ∀ fuel' key, Get fuel' h'' r key = Get fuel' h' r key) :=
  C9_filter_snapshot id (fun l => List.Perm.refl l) 2 sampleHeap 1 [1, 0] (by decide) 2
    (by decide) (fun _ => true)

/-- C10: `FilterHasPrefix(pre)` is `Filter` with the predicate "the key starts with
`pre`"; for a store with a finite chain and enough fuel the result holds exactly the
keys of `Keys()` that start with `pre`, each with its effective value, and with the
empty string it holds every key of `Keys()`. -/
theorem C10_filterHasPrefix_refines (order : RangeOrder)
    (hord : ∀ l, (order l).Perm l) (n : Nat) (h : Heap) (p : Addr) (as : List Addr)
    (hc : chainOf n h p = some as) (fuel : Nat) (hf : as.length ≤ fuel) (pre : String) :
    FilterHasPrefix order fuel h p pre =
      Filter order fuel h p (fun k => decide (startsWith k pre)) ∧
    ∃ h' r robj ks, FilterHasPrefix order fuel h p pre = some (h', r) ∧
      h'[r]? = some robj ∧ Keys order fuel h p = some ks ∧
      (∀ k, k ∈ robj.Map.keys ↔ k ∈ ks ∧ startsWith k pre) ∧
      (∀ k v, robj.Map.lookup k = some v → Get fuel h p k = some (v, true)) ∧
      (pre = "" → ∀ k, k ∈ robj.Map.keys ↔ k ∈ ks) := by
  have hfun : (fun v => HasPrefix v pre) = (fun k => decide (startsWith k pre)) := by
    funext k
    rw [Bool.eq_iff_iff, HasPrefix_iff, decide_eq_true_iff]
  obtain ⟨h2, robj, hfil, -, hprop, -, hlook⟩ :=
    Filter_spec order hord n h p as hc fuel hf (fun v => HasPrefix v pre)
  obtain ⟨ks, hks, -, -, hmem⟩ := Keys_spec order hord n h p as hc fuel hf
  have hkeys : ∀ k, k ∈ robj.Map.keys ↔ k ∈ ks ∧ startsWith k pre := by
    intro k
    rw [← AList.mem_keys, ← AList.lookup_isSome, hlook k, hmem k, ← HasPrefix_iff]
    by_cases hfk : HasPrefix k pre = true <;>
      by_cases hrk : (resolve h as k).2 = true <;> simp [hfk, hrk]
  refine ⟨by unfold FilterHasPrefix; rw [hfun], h2, h.length, robj, ks, hfil, hprop, hks,
    hkeys, ?_, ?_⟩
  · intro k v hv
    rw [hlook k] at hv
    rw [Get_eq_resolve n h p as hc fuel hf k]
    cases hr : resolve h as k with
    | mk rv rok =>
      rw [hr] at hv
      by_cases hfk : HasPrefix k pre = true
      · cases rok with
        | true =>
          simp [hfk] at hv
          rw [hv]
        | false => simp [hfk] at hv
      · simp [hfk] at hv
  · intro hpre k
    rw [hkeys k]
    subst hpre
    exact and_iff_left (List.nil_prefix)

/-- C10 witness: the keys of `S` in the sample heap that start with `b`. -/
theorem C10_filterHasPrefix_refines_witness :
    FilterHasPrefix id 2 sampleHeap 1 "b" =
      Filter id 2 sampleHeap 1 (fun k => decide (startsWith k "b")) ∧
    ∃ h' r robj ks, FilterHasPrefix id 2 sampleHeap 1 "b" = some (h', r) ∧
      h'[r]? = some robj ∧ Keys id 2 sampleHeap 1 = some ks ∧
      (∀ k, k ∈ robj.Map.keys ↔ k ∈ ks ∧ startsWith k "b") ∧
      (∀ k v, robj.Map.lookup k = some v → Get 2 sampleHeap 1 k = some (v, true)) ∧
      ("b" = "" → ∀ k, k ∈ robj.Map.keys ↔ k ∈ ks) :=
  C10_filterHasPrefix_refines id (fun l => List.Perm.refl l) 2 sampleHeap 1 [1, 0]
    (by decide) 2 (by decide) "b"

/-- C11: the malformed line. On the input `"novalueline\n"` the split has a single
piece, so the index expression `splitted[1]` is out of range: `ReadFrom` panics on a
valid empty store instead of returning a parse error. -/
theorem C11_malformed_line_panics :
    SplitN '=' 2 (TrimSpace "novalueline").data = ["novalueline"] ∧
    (Put (New []).1 (New []).2 "k" "v").isSome = true ∧
    (ReadFrom (New []).1 (New []).2 "novalueline\n").isNone = true := by
  decide

/-- C13: first `=` wins. For every scanned line whose trimmed content is not empty, is
not a comment and contains `=`, the loop body puts the entry whose key is the part of
the trimmed line before the first `=` and whose value is everything after it, with no
further trimming; on a valid store the entry is then held locally, and it is the entry
held after `ReadFrom` when the line is the last line of a well-formed input. -/
theorem C13_split_at_first_equals (p : Addr) (h : Heap) (n : Nat) (b : String)
    (hne : (TrimSpace b).data ≠ []) (hnc : (TrimSpace b).data.head? ≠ some '#')
    (heq : '=' ∈ (TrimSpace b).data) :
    ∃ key value : List Char, (TrimSpace b).data = key ++ '=' :: value ∧ '=' ∉ key ∧
      readLine p h n b =
        (match Put h p ⟨key⟩ ⟨value⟩ with
         | none => none
         | some h1 => some (h1, n + b.utf8ByteSize)) ∧
      (p < h.length → ∃ h1, readLine p h n b = some (h1, n + b.utf8ByteSize) ∧
        localGet h1 p ⟨key⟩ = some ⟨value⟩) ∧
      (∀ (r : String) (front : List String), p < h.length →
        (Scan r).1 = front ++ [b] → (∀ b' ∈ front, ¬ Malformed b') →
        ∃ res, ReadFrom h p r = some res ∧ localGet res.heap p ⟨key⟩ = some ⟨value⟩) := by
  have hns : ¬ Skipped b := by
    rintro (he | hc)
    · exact hne he
    · exact hnc hc
  cases hcut : cutAt '=' (TrimSpace b).data with
  | none => exact absurd heq ((cutAt_none '=' _).mp hcut)
  | some ab =>
    obtain ⟨key, value⟩ := ab
    obtain ⟨hdata, hna⟩ := cutAt_some '=' _ key value hcut
    have hd : Defines b ⟨key⟩ ⟨value⟩ := ⟨hns, hdata, hna⟩
    have hrl := readLine_defines p h n b ⟨key⟩ ⟨value⟩ hd
    refine ⟨key, value, hdata, hna, hrl, ?_, ?_⟩
    · intro hp
      obtain ⟨obj, hobj⟩ : ∃ obj, h[p]? = some obj := ⟨h[p], by simp [hp]⟩
      refine ⟨h.set p { obj with Map := obj.Map.insert ⟨key⟩ ⟨value⟩ }, ?_, ?_⟩
      · rw [hrl]
        simp [Put, hobj]
      · simp [localGet, getElem?_set_self_of_some hobj, AList.lookup_insert]
    · intro r front hp hsplit hfront
      obtain ⟨obj, hobj⟩ : ∃ obj, h[p]? = some obj := ⟨h[p], by simp [hp]⟩
      have hnm : ∀ b' ∈ (Scan r).1, ¬ Malformed b' := by
        intro b' hb'
        rw [hsplit] at hb'
        rcases List.mem_append.mp hb' with hf | hl
        · exact hfront b' hf
        · rw [List.mem_singleton.mp hl]
          exact fun hm => hm.2 heq
      obtain ⟨h', obj', hloop, hp', -, -, hlook⟩ :=
        readLoop_wf p (Scan r).1 h 0 obj hobj hnm
      refine ⟨_, ReadFrom_of_readLoop _ _ _ _ _ hloop, ?_⟩
      have hl : lastValue ⟨key⟩ (Scan r).1 = some ⟨value⟩ := by
        rw [hsplit]
        exact lastValue_complete _ _ front b [] hd (by simp)
      simp only [localGet, hp', hlook, hl]

/-- C13 witness: the line `a=b=c`; parsing `"a=b=c\n"` into an empty store yields
exactly the entry with key `a` and value `b=c`. -/
theorem C13_split_at_first_equals_witness :
    (∃ key value : List Char, (TrimSpace "a=b=c").data = key ++ '=' :: value ∧
      '=' ∉ key ∧
      ∃ res, ReadFrom (New []).1 0 "a=b=c\n" = some res ∧
        localGet res.heap 0 ⟨key⟩ = some ⟨value⟩) ∧
    (ReadFrom (New []).1 0 "a=b=c\n").bind (fun r => entriesOf r.heap 0) =
      some [("a", "b=c")] := by
  obtain ⟨key, value, hdata, hna, -, -, hread⟩ :=
    C13_split_at_first_equals 0 (New []).1 0 "a=b=c" (by decide) (by decide) (by decide)
  exact ⟨⟨key, value, hdata, hna,
    hread "a=b=c\n" [] (by decide) (by decide) (by simp)⟩, by decide⟩

/-- C14 (as stated, refuted): parsing `"# comment\n\n key1 = val1 \n"` does not yield
the single entry with key `"key1 "` and value `" val1 "`. -/
theorem C14_sample_value_not_as_stated :
    ¬ ((ReadFrom (New []).1 0 "# comment\n\n key1 = val1 \n").bind
        (fun r => entriesOf r.heap 0) = some [("key1 ", " val1 ")]) := by
  decide

/-- C14 (amended): parsing `"# comment\n\n key1 = val1 \n"` into an empty store returns
without error and yields exactly one entry, with key `"key1 "` (trailing space) and
value `" val1"` (leading space, no trailing space: the line is trimmed before the
split). -/
theorem C14_sample_parse :
    (ReadFrom (New []).1 0 "# comment\n\n key1 = val1 \n").bind
        (fun r => entriesOf r.heap 0) = some [("key1 ", " val1")] ∧
    (ReadFrom (New []).1 0 "# comment\n\n key1 = val1 \n").map (fun r => r.err) =
      some none ∧
    (TrimSpace " key1 = val1 ") = "key1 = val1" := by
  decide

/-- C15 (as stated, refuted): the input `longCommentInput` is a single comment line,
yet `ReadFrom` returns the error `ErrTooLong`, because the line does not fit into the
scanner's buffer. -/
theorem C15_long_comment_line_errors :
    (∀ l ∈ rawLines longCommentInput.data, Skipped ⟨dropCR l⟩) ∧
    ∃ res, ReadFrom (New []).1 (New []).2 longCommentInput = some res ∧
      res.err = some ErrTooLong := by
  have hn : MaxScanTokenSize ≤ 65536 + 1 := by decide
  obtain ⟨hskip, hscan⟩ := long_comment_line longCommentInput 65536 rfl hn
  have hloop : readLoop (New []).2 (Scan longCommentInput).1 (New []).1 0 =
      some ((New []).1, 0) := by
    rw [hscan]
    rfl
  obtain ⟨res, hread⟩ :
      ∃ res, ReadFrom (New []).1 (New []).2 longCommentInput = some res :=
    ⟨_, ReadFrom_of_readLoop _ _ _ _ _ hloop⟩
  have herr : res.err = some ErrTooLong := by
    rw [ReadFrom_err _ _ _ _ hread, hscan]
  exact ⟨hskip, res, hread, herr⟩

/-- C15 (amended): when every line of the input is shorter than `MaxScanTokenSize`
bytes and is blank or a comment, `ReadFrom` returns without error and leaves the heap,
hence the local map and the defaults pointer of the store, exactly as it was. -/
theorem C15_comments_and_blanks_skipped (h : Heap) (p : Addr) (r : String)
    (hlen : ∀ l ∈ rawLines r.data, String.utf8ByteSize ⟨l⟩ < MaxScanTokenSize)
    (hskip : ∀ l ∈ rawLines r.data, Skipped ⟨dropCR l⟩) :
    ∃ res, ReadFrom h p r = some res ∧ res.err = none ∧ res.heap = h := by
  have hscan : Scan r = ((rawLines r.data).map (fun l => (⟨dropCR l⟩ : String)), none) :=
    scanTokens_fit _ hlen
  have hall : ∀ b ∈ (rawLines r.data).map (fun l => (⟨dropCR l⟩ : String)), Skipped b := by
    intro b hb
    obtain ⟨l, hl, rfl⟩ := List.mem_map.mp hb
    exact hskip l hl
  have hloop : readLoop p (Scan r).1 h 0 =
      some (h, 0 + ((Scan r).1.map String.utf8ByteSize).sum) := by
    apply readLoop_skipped
    rw [hscan]
    exact hall
  have hread := ReadFrom_of_readLoop _ _ _ _ _ hloop
  refine ⟨_, hread, ?_, rfl⟩
  rw [ReadFrom_err _ _ _ _ hread, hscan]

/-- C15 witness: comment lines and blank lines read into the store `S` of the sample
heap. -/
theorem C15_comments_and_blanks_skipped_witness :
    ∃ res, ReadFrom sampleHeap 1 "# a=1\n\n \t \r\n  #b=2" = some res ∧ res.err = none ∧
      res.heap = sampleHeap :=
  C15_comments_and_blanks_skipped sampleHeap 1 "# a=1\n\n \t \r\n  #b=2" (by decide)
    (by decide)

/-- On a valid store and scanned lines without malformed line `ReadFrom` returns, and
for every key the store then holds the value of the last scanned line that defines the
key. -/
theorem ReadFrom_last_value_scanned (h : Heap) (p : Addr) (obj : Properties)
    (r : String) (hp : h[p]? = some obj)
    (hwf : ∀ b ∈ (Scan r).1, ¬ Skipped b → '=' ∈ (TrimSpace b).data) :
    ∃ res, ReadFrom h p r = some res ∧ res.err = (Scan r).2 ∧
      ∀ front b back k v, (Scan r).1 = front ++ b :: back → Defines b k v →
        (∀ b' ∈ back, ∀ v', ¬ Defines b' k v') → localGet res.heap p k = some v := by
  have hnm : ∀ b ∈ (Scan r).1, ¬ Malformed b :=
    fun b hb hm => hm.2 (hwf b hb hm.1)
  obtain ⟨h', obj', hloop, hp', -, -, hlook⟩ := readLoop_wf p (Scan r).1 h 0 obj hp hnm
  refine ⟨_, ReadFrom_of_readLoop _ _ _ _ _ hloop, rfl, ?_⟩
  · intro front b back k v hsplit hd hback
    have hl : lastValue k (Scan r).1 = some v := by
      rw [hsplit]
      exact lastValue_complete k v front b back hd hback
    simp only [localGet, hp', hlook k, hl]

/-- C16 (as stated, refuted): every line of the input `longLineInput` is well formed and
its last line `a=9` is the last line that defines `a`, but the second line does not fit
into the scanner's buffer: the scan stops there and the store read keeps `a = 1`. -/
theorem C16_long_line_hides_last_duplicate :
    (∀ b ∈ linesOf longLineInput, ¬ Skipped b → '=' ∈ (TrimSpace b).data) ∧
    linesOf longLineInput = ["a=1", ⟨longLine⟩] ++ "a=9" :: [] ∧
    Defines "a=9" "a" "9" ∧
    ∃ res, ReadFrom (New []).1 (New []).2 longLineInput = some res ∧
      localGet res.heap (New []).2 "a" = some "1" := by
  have hn : MaxScanTokenSize ≤ 65534 + 2 := by decide
  obtain ⟨hlines, hwf, hscan⟩ := long_line_scan longLineInput longLine 65534 rfl rfl hn
  have hloop : (readLoop (New []).2 (Scan longLineInput).1 (New []).1 0).isSome = true := by
    rw [hscan]
    decide
  obtain ⟨hn1, hloop1⟩ := Option.isSome_iff_exists.mp hloop
  obtain ⟨h1, n1⟩ := hn1
  have hget : localGet h1 (New []).2 "a" = some "1" := by
    have hval : (readLoop (New []).2 (Scan longLineInput).1 (New []).1 0).bind
        (fun x => localGet x.1 (New []).2 "a") = some "1" := by
      rw [hscan]
      decide
    rw [hloop1] at hval
    exact hval
  exact ⟨hwf, hlines, by decide, _, ReadFrom_of_readLoop _ _ _ _ _ hloop1, hget⟩

/-- C16 (amended): last duplicate wins. On a valid store and an input each of whose lines
is shorter than `MaxScanTokenSize` bytes and, when neither blank nor a comment, contains
`=`, `ReadFrom` returns without error, and for every key that the lines of the input
define the store then holds the value of the last line, in the order of the input, that
defines the key. -/
theorem C16_last_duplicate_wins (h : Heap) (p : Addr) (obj : Properties) (r : String)
    (hp : h[p]? = some obj)
    (hlen : ∀ l ∈ rawLines r.data, String.utf8ByteSize ⟨l⟩ < MaxScanTokenSize)
    (hwf : ∀ b ∈ linesOf r, ¬ Skipped b → '=' ∈ (TrimSpace b).data) :
    ∃ res, ReadFrom h p r = some res ∧ res.err = none ∧
      ∀ front b back k v, linesOf r = front ++ b :: back → Defines b k v →
        (∀ b' ∈ back, ∀ v', ¬ Defines b' k v') → localGet res.heap p k = some v := by
  have hscan : Scan r = (linesOf r, none) := scanTokens_fit _ hlen
  have hwf' : ∀ b ∈ (Scan r).1, ¬ Skipped b → '=' ∈ (TrimSpace b).data := by
    rw [hscan]
    exact hwf
  obtain ⟨res, hread, herr, hlast⟩ := ReadFrom_last_value_scanned h p obj r hp hwf'
  refine ⟨res, hread, by rw [herr, hscan], ?_⟩
  intro front b back k v hsplit hd hback
  exact hlast front b back k v (by rw [hscan]; exact hsplit) hd hback

/-- C16 witness: the key `a` is defined twice; the second value is kept. -/
theorem C16_last_duplicate_wins_witness :
    (∃ res, ReadFrom (New []).1 0 "a=1\nb=2\na=3\n" = some res ∧ res.err = none ∧
      ∀ front b back k v, linesOf "a=1\nb=2\na=3\n" = front ++ b :: back →
        Defines b k v → (∀ b' ∈ back, ∀ v', ¬ Defines b' k v') →
        localGet res.heap 0 k = some v) ∧
    (ReadFrom (New []).1 0 "a=1\nb=2\na=3\n").bind (fun res => localGet res.heap 0 "a") =
      some "3" :=
  ⟨C16_last_duplicate_wins (New []).1 0 { Map := ∅, Defaults := none } "a=1\nb=2\na=3\n"
    rfl (by decide) (by decide), by decide⟩

/-- C18: the byte count of `ReadFrom`. Whenever `ReadFrom` returns, `n` is the sum of
the byte lengths of the scanned lines as delivered by the scanner (not trimmed, blank
and comment lines included, line terminators excluded), so `n` is smaller than the
number of bytes of the input as soon as the input contains a newline; on a valid store
and an input without malformed line `ReadFrom` does return. -/
theorem C18_read_byte_count (h : Heap) (p : Addr) (obj : Properties) (r : String)
    (hp : h[p]? = some obj)
    (hwf : ∀ b ∈ (Scan r).1, ¬ Skipped b → '=' ∈ (TrimSpace b).data) :
    (∃ res, ReadFrom h p r = some res ∧ res.err = (Scan r).2 ∧
      res.n = ((Scan r).1.map String.utf8ByteSize).sum ∧
      ('\n' ∈ r.data → res.n < r.utf8ByteSize)) ∧
    (∀ h2 p2 res2, ReadFrom h2 p2 r = some res2 →
      res2.n = ((Scan r).1.map String.utf8ByteSize).sum ∧
      res2.n + r.data.count '\n' ≤ r.utf8ByteSize) := by
  have hle : ((Scan r).1.map String.utf8ByteSize).sum + r.data.count '\n' ≤
      r.utf8ByteSize := by
    have h1 := scanTokens_sum_le (rawLines r.data)
    have h2 := utf8Len_eq_rawLines r.data
    rw [utf8ByteSize_eq_utf8Len]
    unfold Scan
    omega
  have hnm : ∀ b ∈ (Scan r).1, ¬ Malformed b :=
    fun b hb hm => hm.2 (hwf b hb hm.1)
  obtain ⟨h', obj', hloop, -, -, -, -⟩ := readLoop_wf p (Scan r).1 h 0 obj hp hnm
  refine ⟨⟨_, ReadFrom_of_readLoop _ _ _ _ _ hloop, rfl, by simp, ?_⟩, ?_⟩
  · intro hnl
    have hpos : 0 < r.data.count '\n' := List.count_pos_iff.mpr hnl
    simp only [Nat.zero_add]
    omega
  · intro h2 p2 res2 hr
    unfold ReadFrom at hr
    cases hl : readLoop p2 (Scan r).1 h2 0 with
    | none => simp [hl] at hr
    | some hn =>
      obtain ⟨h3, n3⟩ := hn
      simp only [hl, Option.some.injEq] at hr
      have hn3 := readLoop_n p2 (Scan r).1 h2 0 h3 n3 hl
      subst hr
      simp only [Nat.zero_add] at hn3
      simp only [hn3]
      exact ⟨trivial, hle⟩

/-- C18 witness: four lines (one with a carriage return, one blank, one comment), 17
bytes of input, of which `n` counts 13. -/
theorem C18_read_byte_count_witness :
    ((∃ res, ReadFrom (New []).1 0 "a=1\r\n\n# c\nb = 2 x" = some res ∧
      res.err = (Scan "a=1\r\n\n# c\nb = 2 x").2 ∧
      res.n = ((Scan "a=1\r\n\n# c\nb = 2 x").1.map String.utf8ByteSize).sum ∧
      ('\n' ∈ "a=1\r\n\n# c\nb = 2 x".data →
        res.n < "a=1\r\n\n# c\nb = 2 x".utf8ByteSize)) ∧
    (∀ h2 p2 res2, ReadFrom h2 p2 "a=1\r\n\n# c\nb = 2 x" = some res2 →
      res2.n = ((Scan "a=1\r\n\n# c\nb = 2 x").1.map String.utf8ByteSize).sum ∧
      res2.n + "a=1\r\n\n# c\nb = 2 x".data.count '\n' ≤
        "a=1\r\n\n# c\nb = 2 x".utf8ByteSize)) ∧
    (ReadFrom (New []).1 0 "a=1\r\n\n# c\nb = 2 x").map (fun res => res.n) = some 13 ∧
    "a=1\r\n\n# c\nb = 2 x".utf8ByteSize = 17 :=
  ⟨C18_read_byte_count (New []).1 0 { Map := ∅, Defaults := none }
    "a=1\r\n\n# c\nb = 2 x" rfl (by decide), by decide, by decide⟩

/-- After `ReadFrom` of scanned lines without malformed line into a new empty store,
every entry `k = v` of the store comes from the last scanned line that defines `k`:
`k` has no `=`, does not begin with `#` or with white space, `v` does not end with white
space, and `k + "=" + v` is the trimmed content of that line. -/
theorem ReadFrom_entries_scanned (h0 : Heap) (r : String)
    (hwf : ∀ b ∈ (Scan r).1, ¬ Skipped b → '=' ∈ (TrimSpace b).data) :
    ∃ res, ReadFrom (New h0).1 (New h0).2 r = some res ∧ res.err = (Scan r).2 ∧
      ∀ k v, localGet res.heap (New h0).2 k = some v →
        '=' ∉ k.data ∧ k.data.head? ≠ some '#' ∧
        (∀ c, k.data.head? = some c → isSpace c = false) ∧
        (∀ c, v.data.getLast? = some c → isSpace c = false) ∧
        ∃ front b back, (Scan r).1 = front ++ b :: back ∧ Defines b k v ∧
          (∀ b' ∈ back, ∀ v', ¬ Defines b' k v') ∧ k ++ "=" ++ v = TrimSpace b := by
  have hnm : ∀ b ∈ (Scan r).1, ¬ Malformed b :=
    fun b hb hm => hm.2 (hwf b hb hm.1)
  have hp : (New h0).1[(New h0).2]? = some { Map := ∅, Defaults := none } :=
    List.getElem?_concat_length h0 _
  obtain ⟨h', obj', hloop, hp', -, -, hlook⟩ :=
    readLoop_wf (New h0).2 (Scan r).1 (New h0).1 0 _ hp hnm
  refine ⟨_, ReadFrom_of_readLoop _ _ _ _ _ hloop, rfl, ?_⟩
  intro k v hkv
  have hl : lastValue k (Scan r).1 = some v := by
    simp only [localGet, hp', hlook k] at hkv
    cases hlv : lastValue k (Scan r).1 with
    | none => simp [hlv, AList.lookup_empty] at hkv
    | some w =>
      simp only [hlv, Option.some.injEq] at hkv
      rw [hkv]
  obtain ⟨front, b, back, hsplit, hd, hback⟩ := lastValue_sound k v _ hl
  obtain ⟨hns, hdata, hna⟩ := hd
  have hhead : ∀ c, k.data.head? = some c → (TrimSpace b).data.head? = some c := by
    intro c hc
    rw [hdata, List.head?_append, hc]
    rfl
  have hlast : ∀ c, v.data.getLast? = some c → (TrimSpace b).data.getLast? = some c := by
    intro c hc
    rw [hdata, List.getLast?_append, List.getLast?_cons, hc]
    rfl
  refine ⟨hna, ?_, ?_, ?_, front, b, back, hsplit, ⟨hns, hdata, hna⟩, hback, ?_⟩
  · intro hc
    exact hns (Or.inr (hhead _ hc))
  · intro c hc
    exact TrimSpace_head_not_space b c (hhead c hc)
  · intro c hc
    exact TrimSpace_last_not_space b c (hlast c hc)
  · apply String.ext
    rw [hdata]
    simp [String.data_append]

/-- C20 (as stated, refuted): every line of the input `longLineInput` is well formed and
the last line of the input that defines `a` is `a=9`; `ReadFrom` into a new empty store
stops at the second line, which does not fit into the scanner's buffer, and yields the
entry `a = 1`, so `k + "=" + v` is `a=1` and not the trimmed content `a=9` of the last
input line that defines `a`. -/
theorem C20_entry_not_from_last_input_line :
    (∀ b ∈ linesOf longLineInput, ¬ Skipped b → '=' ∈ (TrimSpace b).data) ∧
    linesOf longLineInput = ["a=1", ⟨longLine⟩] ++ "a=9" :: [] ∧
    Defines "a=9" "a" "9" ∧
    ∃ res, ReadFrom (New []).1 (New []).2 longLineInput = some res ∧
      entriesOf res.heap (New []).2 = some [("a", "1")] ∧
      ("a" ++ "=" ++ "1" : String) ≠ TrimSpace "a=9" := by
  have hn : MaxScanTokenSize ≤ 65534 + 2 := by decide
  obtain ⟨hlines, hwf, hscan⟩ := long_line_scan longLineInput longLine 65534 rfl rfl hn
  have hloop : (readLoop (New []).2 (Scan longLineInput).1 (New []).1 0).isSome = true := by
    rw [hscan]
    decide
  obtain ⟨hn1, hloop1⟩ := Option.isSome_iff_exists.mp hloop
  obtain ⟨h1, n1⟩ := hn1
  have hent : entriesOf h1 (New []).2 = some [("a", "1")] := by
    have hval : (readLoop (New []).2 (Scan longLineInput).1 (New []).1 0).bind
        (fun x => entriesOf x.1 (New []).2) = some [("a", "1")] := by
      rw [hscan]
      decide
    rw [hloop1] at hval
    exact hval
  exact ⟨hwf, hlines, by decide, _, ReadFrom_of_readLoop _ _ _ _ _ hloop1, hent,
    by decide⟩

/-- C20 (amended): invariant of parsed entries. For an input each of whose lines is
shorter than `MaxScanTokenSize` bytes and, when neither blank nor a comment, contains
`=`, `ReadFrom` into a new empty store returns without error, and every entry `k = v` of
the store satisfies: `k` has no `=`, `k` does not begin with `#` or with white space, `v`
does not end with white space, and `k + "=" + v` is the trimmed content of the last line
of the input that defines `k`. -/
theorem C20_parsed_entries_invariant (h0 : Heap) (r : String)
    (hlen : ∀ l ∈ rawLines r.data, String.utf8ByteSize ⟨l⟩ < MaxScanTokenSize)
    (hwf : ∀ b ∈ linesOf r, ¬ Skipped b → '=' ∈ (TrimSpace b).data) :
    ∃ res, ReadFrom (New h0).1 (New h0).2 r = some res ∧ res.err = none ∧
      ∀ k v, localGet res.heap (New h0).2 k = some v →
        '=' ∉ k.data ∧ k.data.head? ≠ some '#' ∧
        (∀ c, k.data.head? = some c → isSpace c = false) ∧
        (∀ c, v.data.getLast? = some c → isSpace c = false) ∧
        ∃ front b back, linesOf r = front ++ b :: back ∧ Defines b k v ∧
          (∀ b' ∈ back, ∀ v', ¬ Defines b' k v') ∧ k ++ "=" ++ v = TrimSpace b := by
  have hscan : Scan r = (linesOf r, none) := scanTokens_fit _ hlen
  have hwf' : ∀ b ∈ (Scan r).1, ¬ Skipped b → '=' ∈ (TrimSpace b).data := by
    rw [hscan]
    exact hwf
  obtain ⟨res, hread, herr, hent⟩ := ReadFrom_entries_scanned h0 r hwf'
  refine ⟨res, hread, by rw [herr, hscan], ?_⟩
  intro k v hkv
  obtain ⟨h1, h2, h3, h4, front, b, back, hsplit, hd, hback, hline⟩ := hent k v hkv
  exact ⟨h1, h2, h3, h4, front, b, back, by rw [hscan] at hsplit; exact hsplit, hd, hback,
    hline⟩

/-- C20 witness: three lines, two of which define the key `a ` (with a trailing
space). -/
theorem C20_parsed_entries_invariant_witness :
    (∃ res, ReadFrom (New []).1 (New []).2 " a = 1 \n#c\na =2 \n" = some res ∧
      res.err = none ∧
      ∀ k v, localGet res.heap (New []).2 k = some v →
        '=' ∉ k.data ∧ k.data.head? ≠ some '#' ∧
        (∀ c, k.data.head? = some c → isSpace c = false) ∧
        (∀ c, v.data.getLast? = some c → isSpace c = false) ∧
        ∃ front b back, linesOf " a = 1 \n#c\na =2 \n" = front ++ b :: back ∧
          Defines b k v ∧ (∀ b' ∈ back, ∀ v', ¬ Defines b' k v') ∧
          k ++ "=" ++ v = TrimSpace b) ∧
    (ReadFrom (New []).1 (New []).2 " a = 1 \n#c\na =2 \n").bind
      (fun res => entriesOf res.heap 0) = some [("a ", "2")] :=
  ⟨C20_parsed_entries_invariant [] " a = 1 \n#c\na =2 \n" (by decide) (by decide),
    by decide⟩

/-- C17: `WriteTo` on a sink whose writes never fail (each `Write` reports the whole
length and no error). For some ordering `es` of the local entries of `p` the sink gets
exactly the writes `key`, `=`, `value`, newline of the entries of `es` in turn, nothing
for the entries of the defaults chain, and `WriteTo` returns `n` equal to the sum of
`len(key) + len(value) + 2` with a nil error; on a buffer the text `serialize es` is
appended, without escaping. -/
theorem C17_writeTo_local_entries {σ : Type} (order : RangeOrder)
    (hord : ∀ l, (order l).Perm l) (w : Writer σ)
    (hw : ∀ s b, (w.Write s b).2 = (b.utf8ByteSize, none)) (s : σ) (h : Heap)
    (p : Addr) (obj : Properties) (hp : h[p]? = some obj) :
    ∃ es : List (String × String),
      es.Perm (obj.Map.entries.map (fun e => (e.1, e.2))) ∧
      WriteTo order w s h p =
        some ((chunksOf es).foldl (fun st b => (w.Write st b).1) s,
          (es.map (fun e => e.1.utf8ByteSize + e.2.utf8ByteSize + 2)).sum, none) ∧
      ∀ out, WriteTo order bufferWriter out h p =
        some (out ++ ⟨serialize es⟩,
          (es.map (fun e => e.1.utf8ByteSize + e.2.utf8ByteSize + 2)).sum, none) := by
  refine ⟨rangeEntries order obj.Map, rangeEntries_perm order hord obj.Map, ?_, ?_⟩
  · simp only [WriteTo, hp, writeLoop_ok w hw, Nat.zero_add]
  · intro out
    have hb : ∀ s b, (bufferWriter.Write s b).2 = (b.utf8ByteSize, none) :=
      fun _ _ => rfl
    simp only [WriteTo, hp, writeLoop_ok bufferWriter hb, Nat.zero_add,
      bufferWriter_foldl]

/-- C17 witness: the store `S` of the sample heap is written to a buffer; the entries
`b` and `c` of its defaults are not written. -/
theorem C17_writeTo_local_entries_witness :
    (∃ es : List (String × String),
      es.Perm ((AList.insert "a" "1" (AList.insert "b" "0" ∅) :
        GoMap String).entries.map (fun e => (e.1, e.2))) ∧
      WriteTo List.reverse bufferWriter "" sampleHeap 1 =
        some ((chunksOf es).foldl (fun st b => (bufferWriter.Write st b).1) "",
          (es.map (fun e => e.1.utf8ByteSize + e.2.utf8ByteSize + 2)).sum, none) ∧
      ∀ out, WriteTo List.reverse bufferWriter out sampleHeap 1 =
        some (out ++ ⟨serialize es⟩,
          (es.map (fun e => e.1.utf8ByteSize + e.2.utf8ByteSize + 2)).sum, none)) ∧
    WriteTo List.reverse bufferWriter "" sampleHeap 1 = some ("b=0\na=1\n", 8, none) :=
  ⟨C17_writeTo_local_entries List.reverse List.reverse_perm bufferWriter
    (fun _ _ => rfl) "" sampleHeap 1
    { Map := AList.insert "a" "1" (AList.insert "b" "0" ∅), Defaults := some 0 } rfl,
    by decide⟩

/-- C19: a failing write that has written a part. The sink has room for one byte; the
first write, of the key `ab`, stores `a`, reports one byte and fails: `WriteTo` returns
the error at once and writes nothing more, but returns `n = 0` although one byte has
reached the sink. -/
theorem C19_partial_write_not_counted :
    WriteTo id limitedWriter ("", 1)
        [{ Map := AList.insert "ab" "1" ∅, Defaults := none }] 0 =
      some (("a", 0), 0, some "short write") ∧
    limitedWriter.Write ("", 1) "ab" = (("a", 0), 1, some "short write") := by
  decide

/-- C12 (as stated, refuted): the store with the single entry `" a" = "v"` has no
defaults and no `=`, `#` or newline in its key and value; `WriteTo` emits `" a=v\n"`
and `ReadFrom` parses this into the entry `"a" = "v"`: the key has lost its leading
space, so the mapping read back differs from the one written. -/
theorem C12_leading_space_not_restored :
    WriteTo id bufferWriter ""
        [{ Map := AList.insert " a" "v" ∅, Defaults := none }] 0 =
      some (" a=v\n", 5, none) ∧
    localGet [{ Map := AList.insert " a" "v" ∅, Defaults := none }] 0 " a" = some "v" ∧
    (ReadFrom (New [{ Map := AList.insert " a" "v" ∅, Defaults := none }]).1 1
        " a=v\n").bind (fun r => localGet r.heap 1 " a") = none ∧
    (ReadFrom (New [{ Map := AList.insert " a" "v" ∅, Defaults := none }]).1 1
        " a=v\n").bind (fun r => entriesOf r.heap 1) = some [("a", "v")] := by
  decide

/-- C12 (amended): round trip. When every local entry `k = v` of the store is plain
(`k` has no `=`, neither has a newline, `k` does not begin with `#` or white space, `v`
does not end with white space, the line `k=v` is shorter than `MaxScanTokenSize`
bytes), then for every order of the entries `WriteTo` to an empty buffer succeeds, and
`ReadFrom` of the text written, into a new empty store, returns without error and
yields a store whose local mapping is the local mapping of the store written. -/
theorem C12_round_trip (order : RangeOrder) (hord : ∀ l, (order l).Perm l) (h : Heap)
    (p : Addr) (obj : Properties) (hp : h[p]? = some obj)
    (hpl : ∀ e ∈ obj.Map.entries, Plain e.1 e.2) :
    ∃ out n, WriteTo order bufferWriter "" h p = some (out, n, none) ∧
      ∃ res, ReadFrom (New h).1 (New h).2 out = some res ∧ res.err = none ∧
        ∀ k, localGet res.heap (New h).2 k = obj.Map.lookup k := by
  have hperm := rangeEntries_perm order hord obj.Map
  have hmem : ∀ k v, (k, v) ∈ rangeEntries order obj.Map ↔ obj.Map.lookup k = some v := by
    intro k v
    rw [hperm.mem_iff, List.mem_map]
    constructor
    · rintro ⟨e, he, hpair⟩
      simp only [Prod.mk.injEq] at hpair
      obtain ⟨rfl, rfl⟩ := hpair
      exact (AList.mem_lookup_iff (a := e.1) (b := e.2) (s := obj.Map)).mpr he
    · intro hl
      exact ⟨⟨k, v⟩, (AList.mem_lookup_iff (a := k) (b := v) (s := obj.Map)).mp hl, rfl⟩
  have hplain : ∀ e ∈ rangeEntries order obj.Map, Plain e.1 e.2 := by
    intro e he
    obtain ⟨e', he', hpair⟩ := List.mem_map.mp (hperm.mem_iff.mp he)
    rw [← hpair]
    exact hpl e' he'
  have hnd : ((rangeEntries order obj.Map).map Prod.fst).Nodup := by
    have hk : ((obj.Map.entries.map (fun e => (e.1, e.2))).map Prod.fst) = obj.Map.keys := by
      rw [List.map_map]
      rfl
    exact ((hperm.map Prod.fst).nodup_iff).mpr (hk ▸ AList.keys_nodup obj.Map)
  have hb : ∀ s b, (bufferWriter.Write s b).2 = (b.utf8ByteSize, none) := fun _ _ => rfl
  have hscan := Scan_serialize (rangeEntries order obj.Map) hplain
  have hout : ("" ++ (⟨serialize (rangeEntries order obj.Map)⟩ : String)) =
      ⟨serialize (rangeEntries order obj.Map)⟩ := by
    apply String.ext
    simp [String.data_append]
  have hnm : ∀ b ∈ (Scan ⟨serialize (rangeEntries order obj.Map)⟩).1, ¬ Malformed b := by
    intro b hb' hm
    rw [hscan] at hb'
    obtain ⟨e, he, rfl⟩ := List.mem_map.mp hb'
    have hd := (lineOf_plain e.1 e.2 (hplain e he)).2.2
    apply hm.2
    rw [hd.2.1]
    simp
  have hnew : (New h).1[(New h).2]? = some { Map := ∅, Defaults := none } :=
    List.getElem?_concat_length h _
  obtain ⟨h', obj', hloop, hp', -, -, hlook⟩ :=
    readLoop_wf (New h).2 _ (New h).1 0 _ hnew hnm
  have hread := ReadFrom_of_readLoop _ _ _ _ _ hloop
  refine ⟨⟨serialize (rangeEntries order obj.Map)⟩,
    ((rangeEntries order obj.Map).map
      (fun e => e.1.utf8ByteSize + e.2.utf8ByteSize + 2)).sum, ?_, _, hread, ?_, ?_⟩
  · simp only [WriteTo, hp, writeLoop_ok bufferWriter hb, Nat.zero_add,
      bufferWriter_foldl, hout]
  · rw [ReadFrom_err _ _ _ _ hread, hscan]
  · intro k
    simp only [localGet, hp', hlook k]
    rw [hscan]
    obtain ⟨hsome, hnone⟩ := lastValue_serialize _ hplain hnd k
    cases hl : obj.Map.lookup k with
    | some v =>
      rw [hsome v ((hmem k v).mpr hl)]
    | none =>
      rw [hnone (fun v hv => by
        have := (hmem k v).mp hv
        rw [hl] at this
        cases this)]
      exact AList.lookup_empty k

/-- C12 witness: the store `S` of the sample heap written in reverse order and read
back. -/
theorem C12_round_trip_witness :
    ∃ out n, WriteTo List.reverse bufferWriter "" sampleHeap 1 = some (out, n, none) ∧
      ∃ res, ReadFrom (New sampleHeap).1 (New sampleHeap).2 out = some res ∧
        res.err = none ∧
        ∀ k, localGet res.heap (New sampleHeap).2 k =
          (AList.insert "a" "1" (AList.insert "b" "0" ∅) : GoMap String).lookup k :=
  C12_round_trip List.reverse List.reverse_perm sampleHeap 1
    { Map := AList.insert "a" "1" (AList.insert "b" "0" ∅), Defaults := some 0 } rfl
    (by decide)

end Properties
